import Mathlib

/-!
Verification of the anonymization and message-normalization engine of the
Google Chat Viewer (`app.py`).

The Python source is shallowly embedded: each relevant Python function is
translated into an executable Lean definition operating on `List Char` /
`String` and typed records mirroring the JSON shapes the code manipulates.
Regular-expression calls in the source all use either `re.escape`d literals
(with word-boundary / lookaround decoration) or the fixed link-pattern table,
so they are embedded as direct scanners implementing Python `re` semantics
(leftmost, non-overlapping, greedy with backtracking, `re.IGNORECASE`).
The embedding models the ASCII fragment of Python's Unicode semantics for
case folding (`str.lower`, `re.IGNORECASE`) and for the `\w` word class;
Python's `\s` whitespace class is modelled with its full character set.
-/

namespace ChatViewer

/-- Python `\s` (whitespace class) membership for a character, by code
point: space, the control whitespace range, NEL, NBSP, Ogham space mark,
the U+2000–U+200A spaces, line/paragraph separators, narrow NBSP, medium
mathematical space and ideographic space. -/
def isPySpace (c : Char) : Bool :=
  let n := c.toNat
  n == 32 || n == 9 || n == 10 || n == 13 || n == 11 || n == 12 ||
  n == 28 || n == 29 || n == 30 || n == 31 || n == 133 || n == 160 ||
  n == 5760 || (8192 ≤ n && n ≤ 8202) || n == 8232 || n == 8233 ||
  n == 8239 || n == 8287 || n == 12288

/-- Python `\w` (word character, ASCII fragment): letters, digits, underscore.
Used for the `\b` word-boundary assertions the source builds around
`re.escape`d mapping keys. -/
def isWordChar (c : Char) : Bool :=
  c.isAlpha || c.isDigit || c == '_'

/-- Case-insensitive character equality (`re.IGNORECASE`, ASCII fragment). -/
def charEqCI (a b : Char) : Bool :=
  a.toLower == b.toLower

/-- Case-insensitive prefix test on character lists. -/
def ciIsPrefixOf : List Char → List Char → Bool
  | [], _ => true
  | _ :: _, [] => false
  | a :: as, b :: bs => charEqCI a b && ciIsPrefixOf as bs

/-- Case-insensitive substring containment: models Python
`needle.lower() in hay.lower()`. -/
def ciContains (hay needle : List Char) : Bool :=
  match hay with
  | [] => ciIsPrefixOf needle []
  | _ :: rest => ciIsPrefixOf needle hay || ciContains rest needle

/-- One scanning step of Python `re.sub` where the pattern is an
`re.escape`d literal `needle` decorated with a context condition before the
match (`okB`, receiving the previous input character) and after the match
(`okA`, receiving the input character following the matched span).
Matching is case-insensitive, leftmost and non-overlapping; the replacement
is emitted verbatim and scanning resumes after the matched span of the
*input* (context conditions always look at input characters, as Python's
lookarounds and `\b` do).  `fuel` bounds recursion depth; the wrapper
passes the input length, which suffices since every step consumes at least
one input character. -/
def scanSubAux (okB : Option Char → Bool) (okA : Option Char → Bool)
    (needle repl : List Char) : Nat → Option Char → List Char → List Char
  | 0, _, s => s
  | _ + 1, _, [] => []
  | fuel + 1, pc, c :: rest =>
    if needle ≠ [] && ciIsPrefixOf needle (c :: rest) && okB pc &&
        okA ((c :: rest).drop needle.length).head? then
      repl ++ scanSubAux okB okA needle repl fuel
        (((c :: rest).take needle.length).getLast? ) ((c :: rest).drop needle.length)
    else
      c :: scanSubAux okB okA needle repl fuel (some c) rest

/-- `re.sub` of a decorated literal over a whole string (see `scanSubAux`). -/
def scanSub (okB : Option Char → Bool) (okA : Option Char → Bool)
    (needle repl s : List Char) : List Char :=
  scanSubAux okB okA needle repl s.length none s

/-- `\b` assertion before the matched literal: the wordness of the previous
input character (absent at string start) must differ from the wordness of
the first character of the span (case folding does not change wordness, so
the needle's character is used). -/
def wbBefore (needle : List Char) (pc : Option Char) : Bool :=
  match needle.head? with
  | none => true
  | some f => (match pc with | none => false | some c => isWordChar c) != isWordChar f

/-- `\b` assertion after the matched literal (symmetric to `wbBefore`). -/
def wbAfter (needle : List Char) (nc : Option Char) : Bool :=
  match needle.getLast? with
  | none => true
  | some l => (match nc with | none => false | some c => isWordChar c) != isWordChar l

/-- `re.sub(r'\b' + re.escape(original) + r'\b', replacement, text, re.IGNORECASE)` -/
def wordBoundarySub (original replacement text : List Char) : List Char :=
  scanSub (wbBefore original) (wbAfter original) original replacement text

/-- Membership in the lookbehind class `["'\s]` of the punctuation strategy. -/
def punctBeforeClass (c : Char) : Bool :=
  c == '"' || c == '\'' || isPySpace c

/-- Membership in the lookahead class `["'\s\.,!?]` of the punctuation strategy. -/
def punctAfterClass (c : Char) : Bool :=
  c == '"' || c == '\'' || isPySpace c || c == '.' || c == ',' || c == '!' || c == '?'

/-- `re.sub(r'(?<=["\'\s])' + re.escape(original) + r'(?=["\'\s\.,!?])', ...)`:
both context characters must exist and lie in the respective classes. -/
def punctAdjacentSub (original replacement text : List Char) : List Char :=
  scanSub (fun pc => match pc with | none => false | some c => punctBeforeClass c)
    (fun nc => match nc with | none => false | some c => punctAfterClass c)
    original replacement text

/-- `re.sub(re.escape(original), replacement, text, re.IGNORECASE)`:
unconditioned case-insensitive literal replacement. -/
def exactSub (original replacement text : List Char) : List Char :=
  scanSub (fun _ => true) (fun _ => true) original replacement text

/-- Number of fields of Python `str.split()` (split on whitespace runs,
empty fields dropped). -/
def pySplitCount (s : List Char) : Nat :=
  (s.splitOnP (fun c => isPySpace c)).countP (fun w => !w.isEmpty)

/-- Stable insertion of a mapping pair into a list sorted by key length
descending: the pair goes after every strictly longer key and after every
earlier pair of equal key length. -/
def insertByLenDesc (p : String × String) :
    List (String × String) → List (String × String)
  | [] => [p]
  | q :: rest =>
    if q.1.length > p.1.length then
      q :: insertByLenDesc p rest
    else
      p :: q :: rest

/-- `sorted(name_mappings.items(), key=lambda x: len(x[0]), reverse=True)`:
Python's stable sort by key length descending. -/
def sortMappingsByLenDesc (m : List (String × String)) : List (String × String) :=
  m.foldr insertByLenDesc []

/-- Python `dict` membership `k in d` / lookup `d[k]` on the mapping table
(keys are unique in a Python dict; lookup takes the first occurrence). -/
def dictLookup (m : List (String × String)) (k : String) : Option String :=
  (m.find? (fun p => p.1 == k)).map (·.2)

/-! ### A small regex interpreter for the fixed patterns of the source

Every regex in `app.py` beyond the escaped-literal substitutions is built
from case-insensitive literals, character classes, greedy `*`/`+`/`?`/
bounded repetition, two-way alternation and `\b`; this grammar is embedded
as `RAtom`.  A pattern is a `List RAtom` matched in sequence. -/

inductive RAtom where
  /-- a case-insensitive literal (from the pattern text) -/
  | lit (cs : List Char)
  /-- a single character from a class -/
  | cls (p : Char → Bool)
  /-- greedy `*` over a character class -/
  | star (p : Char → Bool)
  /-- greedy `+` over a character class -/
  | plus (p : Char → Bool)
  /-- greedy `(?: … )?` -/
  | opt (g : List RAtom)
  /-- `(?: … | … )`, left branch preferred -/
  | alt (g1 g2 : List RAtom)
  /-- `\b` word-boundary assertion -/
  | wb

/-- Length of the maximal prefix of `s` whose characters satisfy `p`. -/
def npfx (p : Char → Bool) : List Char → Nat
  | [] => 0
  | c :: rest => if p c then npfx p rest + 1 else 0

/-- The previous-character context after consuming `i` characters of `s`
starting from context `prev`. -/
def prevAfter (prev : Option Char) (s : List Char) (i : Nat) : Option Char :=
  if i == 0 then prev else (s.take i).getLast?

/-- Backtracking states of a greedy class repetition: consuming `i, i-1, …, 0`
characters, in this (greedy-first) order. -/
def starStates (prev : Option Char) (s : List Char) :
    Nat → List (Option Char × List Char)
  | 0 => [(prev, s)]
  | i + 1 => (prevAfter prev s (i + 1), s.drop (i + 1)) :: starStates prev s i

/-- `\b` holds between the previous character and the next one: exactly one
side is a word character (an absent side counts as non-word). -/
def wbHolds (prev : Option Char) (next : Option Char) : Bool :=
  (match prev with | none => false | some c => isWordChar c) !=
    (match next with | none => false | some c => isWordChar c)

mutual

/-- All end states `(previous character, remaining input)` reachable by
matching the atom sequence against the input, listed in Python's
backtracking priority order (greedy repetition longest first, optional
group present first, left alternative first).  The head of the list is the
state Python's `re` engine commits to; the pattern matches here iff the
list is nonempty. -/
def matchAtoms : List RAtom → Option Char → List Char →
    List (Option Char × List Char)
  | [], prev, s => [(prev, s)]
  | atom :: rest, prev, s =>
    (atomStates atom prev s).flatMap (fun st => matchAtoms rest st.1 st.2)

/-- End states of a single atom (see `matchAtoms`). -/
def atomStates : RAtom → Option Char → List Char →
    List (Option Char × List Char)
  | .lit cs, prev, s =>
    if ciIsPrefixOf cs s then
      [(if cs.isEmpty then prev else (s.take cs.length).getLast?, s.drop cs.length)]
    else []
  | .cls p, _, s =>
    match s with
    | [] => []
    | c :: s' => if p c then [(some c, s')] else []
  | .star p, prev, s => starStates prev s (npfx p s)
  | .plus p, _, s =>
    match s with
    | [] => []
    | c :: s' => if p c then starStates (some c) s' (npfx p s') else []
  | .opt g, prev, s => matchAtoms g prev s ++ [(prev, s)]
  | .alt g1 g2, prev, s => matchAtoms g1 prev s ++ matchAtoms g2 prev s
  | .wb, prev, s => if wbHolds prev s.head? then [(prev, s)] else []

end

/-- The remaining input after the match Python commits to at this position,
if the pattern matches here. -/
def matchHere (ats : List RAtom) (prev : Option Char) (s : List Char) :
    Option (List Char) :=
  (matchAtoms ats prev s).head?.map (·.2)

/-- `re.search(pattern, text)` viewed as a Boolean: does the pattern match
at some position? -/
def searchAux (ats : List RAtom) : Option Char → List Char → Bool
  | prev, [] => !(matchAtoms ats prev []).isEmpty
  | prev, c :: rest =>
    !(matchAtoms ats prev (c :: rest)).isEmpty || searchAux ats (some c) rest

/-- `bool(re.search(pattern, text))`. -/
def searchRE (ats : List RAtom) (s : List Char) : Bool :=
  searchAux ats none s

/-- One scan of `re.sub(pattern, repl, text)`: leftmost matches are replaced
by `repl` verbatim and scanning resumes after the matched input span; at a
non-matching position one character is copied.  Every pattern fed to this
function consumes at least one character when it matches, so `fuel :=
s.length` suffices; a (never occurring) zero-width match is copied through
as a non-match. -/
def subAux (ats : List RAtom) (repl : List Char) :
    Nat → Option Char → List Char → List Char
  | 0, _, s => s
  | _ + 1, _, [] => []
  | fuel + 1, prev, c :: rest =>
    match matchHere ats prev (c :: rest) with
    | some s' =>
      if s'.length < rest.length + 1 then
        repl ++ subAux ats repl fuel
          (((c :: rest).take (rest.length + 1 - s'.length)).getLast?) s'
      else c :: subAux ats repl fuel (some c) rest
    | none => c :: subAux ats repl fuel (some c) rest

/-- `re.sub(pattern, repl, text)` for a pattern of the table. -/
def subRE (ats : List RAtom) (repl s : List Char) : List Char :=
  subAux ats repl s.length none s

/-! ### The link-pattern table of `anonymize_all_links` -/

/-- Literal pattern atom from a string. -/
def L (s : String) : RAtom := .lit s.data

/-- Class `[a-zA-Z0-9-_]` (Google document-id characters). -/
def clsId (c : Char) : Bool :=
  let n := c.toNat
  (65 ≤ n && n ≤ 90) || (97 ≤ n && n ≤ 122) || (48 ≤ n && n ≤ 57) ||
    n == 45 || n == 95

/-- Class `[a-zA-Z0-9.-]` (domain-name characters). -/
def clsDom (c : Char) : Bool :=
  let n := c.toNat
  (65 ≤ n && n ≤ 90) || (97 ≤ n && n ≤ 122) || (48 ≤ n && n ≤ 57) ||
    n == 46 || n == 45

/-- Class `[a-zA-Z]` (also `[A-Z]` under `re.IGNORECASE`). -/
def clsAlpha (c : Char) : Bool :=
  let n := c.toNat
  (65 ≤ n && n ≤ 90) || (97 ≤ n && n ≤ 122)

/-- Class `[^\s]`. -/
def clsNS (c : Char) : Bool := !isPySpace c

/-- Class `\d` (ASCII fragment). -/
def clsDigit (c : Char) : Bool :=
  let n := c.toNat
  48 ≤ n && n ≤ 57

/-- Class `[A-Za-z0-9._%+-]` (email local part, from `EMAIL_PATTERN`). -/
def clsLocal (c : Char) : Bool :=
  let n := c.toNat
  (65 ≤ n && n ≤ 90) || (97 ≤ n && n ≤ 122) || (48 ≤ n && n ≤ 57) ||
    n == 46 || n == 95 || n == 37 || n == 43 || n == 45

/-- Class `[A-Z|a-z]` of `EMAIL_PATTERN` (the `|` is a literal class member). -/
def clsAlphaPipe (c : Char) : Bool :=
  let n := c.toNat
  (65 ≤ n && n ≤ 90) || (97 ≤ n && n ≤ 122) || n == 124

/-- `\d{1,3}`: one mandatory digit and up to two optional ones, greedy. -/
def dig13 : List RAtom := [.cls clsDigit, .opt [.cls clsDigit], .opt [.cls clsDigit]]

/-- The `link_patterns` table of `anonymize_all_links`, in Python dict
insertion order (which is the application order of the domain level). -/
def linkPatterns : List (List RAtom × String) :=
  [ -- google_docs
    ([L "https://docs.google.com/document/d/", .plus clsId, .star clsNS], "[DOCS_LINK]"),
    -- google_sheets
    ([L "https://docs.google.com/spreadsheets/d/", .plus clsId, .star clsNS], "[SHEETS_LINK]"),
    -- google_slides
    ([L "https://docs.google.com/presentation/d/", .plus clsId, .star clsNS], "[SLIDES_LINK]"),
    -- google_forms
    ([L "https://docs.google.com/forms/d/", .plus clsId, .star clsNS], "[FORMS_LINK]"),
    -- google_drive
    ([L "https://drive.google.com/", .star clsNS], "[DRIVE_LINK]"),
    -- google_meet
    ([L "https://meet.google.com/", .star clsNS], "[MEET_LINK]"),
    -- google_calendar
    ([L "https://calendar.google.com/", .star clsNS], "[CALENDAR_LINK]"),
    -- google_classroom
    ([L "https://classroom.google.com/", .star clsNS], "[CLASSROOM_LINK]"),
    -- gmail
    ([L "https://mail.google.com/", .star clsNS], "[GMAIL_LINK]"),
    -- google_other
    ([L "https://", .star clsDom, L ".google.com/", .star clsNS], "[GOOGLE_LINK]"),
    -- github
    ([L "https://", .opt [L "www."], L "github.com/", .star clsNS], "[GITHUB_LINK]"),
    -- gitlab
    ([L "https://", .opt [L "www."], L "gitlab.com/", .star clsNS], "[GITLAB_LINK]"),
    -- bitbucket
    ([L "https://", .opt [L "www."], L "bitbucket.org/", .star clsNS], "[BITBUCKET_LINK]"),
    -- stackoverflow
    ([L "https://", .opt [L "www."], L "stackoverflow.com/", .star clsNS], "[STACKOVERFLOW_LINK]"),
    -- npm
    ([L "https://", .opt [L "www."], L "npmjs.com/", .star clsNS], "[NPM_LINK]"),
    -- pypi
    ([L "https://", .opt [L "www."], L "pypi.org/", .star clsNS], "[PYPI_LINK]"),
    -- slack
    ([L "https://", .plus clsDom, L ".slack.com/", .star clsNS], "[SLACK_LINK]"),
    -- discord
    ([L "https://", .opt [L "www."], L "discord.", .alt [L "gg"] [L "com"], L "/", .star clsNS],
      "[DISCORD_LINK]"),
    -- zoom
    ([L "https://", .star clsDom, L ".zoom.us/", .star clsNS], "[ZOOM_LINK]"),
    -- teams
    ([L "https://teams.microsoft.com/", .star clsNS], "[TEAMS_LINK]"),
    -- webex
    ([L "https://", .star clsDom, L ".webex.com/", .star clsNS], "[WEBEX_LINK]"),
    -- dropbox
    ([L "https://", .opt [L "www."], L "dropbox.com/", .star clsNS], "[DROPBOX_LINK]"),
    -- onedrive
    ([L "https://", .star clsDom, L ".sharepoint.com/", .star clsNS], "[ONEDRIVE_LINK]"),
    -- box
    ([L "https://", .star clsDom, L ".box.com/", .star clsNS], "[BOX_LINK]"),
    -- icloud
    ([L "https://", .opt [L "www."], L "icloud.com/", .star clsNS], "[ICLOUD_LINK]"),
    -- linkedin
    ([L "https://", .opt [L "www."], L "linkedin.com/", .star clsNS], "[LINKEDIN_LINK]"),
    -- twitter
    ([L "https://", .opt [L "www."], .alt [L "twitter"] [L "x"], L ".com/", .star clsNS],
      "[TWITTER_LINK]"),
    -- facebook
    ([L "https://", .opt [L "www."], L "facebook.com/", .star clsNS], "[FACEBOOK_LINK]"),
    -- instagram
    ([L "https://", .opt [L "www."], L "instagram.com/", .star clsNS], "[INSTAGRAM_LINK]"),
    -- youtube
    ([L "https://", .opt [L "www."], .alt [L "youtube.com"] [L "youtu.be"], L "/", .star clsNS],
      "[YOUTUBE_LINK]"),
    -- notion
    ([L "https://", .opt [L "www."], L "notion.so/", .star clsNS], "[NOTION_LINK]"),
    -- confluence
    ([L "https://", .star clsDom, L ".atlassian.net/", .star clsNS], "[CONFLUENCE_LINK]"),
    -- jira
    ([L "https://", .star clsDom, L ".atlassian.net/", .star clsNS], "[JIRA_LINK]"),
    -- ftp
    ([L "ftp://", .star clsNS], "[FTP_LINK]"),
    -- file_path
    ([L "file://", .star clsNS], "[FILE_PATH]"),
    -- network_share
    ([L "\\\\", .plus clsDom, L "\\", .star clsNS], "[NETWORK_PATH]"),
    -- ip_address
    (([L "http", .opt [L "s"], L "://"] ++ dig13 ++ [L "."] ++ dig13 ++ [L "."] ++
        dig13 ++ [L "."] ++ dig13 ++ [.opt [L ":", .plus clsDigit], .star clsNS]),
      "[IP_ADDRESS]"),
    -- generic_https
    ([L "https://", .plus clsDom, L ".", .cls clsAlpha, .cls clsAlpha, .star clsAlpha,
        .star clsNS], "[HTTPS_LINK]"),
    -- generic_http
    ([L "http://", .plus clsDom, L ".", .cls clsAlpha, .cls clsAlpha, .star clsAlpha,
        .star clsNS], "[HTTP_LINK]") ]

/-- The `generic_replacements` table of the `full` level, in order:
`web_url`, `email`, `file_path`. -/
def genericReplacements : List (List RAtom × String) :=
  [ ([L "http", .opt [L "s"], L "://", .plus clsNS], "[LINK]"),
    ([.wb, .plus clsLocal, L "@", .plus clsDom, L ".", .cls clsAlphaPipe,
        .cls clsAlphaPipe, .star clsAlphaPipe, .wb], "[EMAIL]"),
    ([.alt [L "file://"] [.alt [.cls clsAlpha, L ":\\"] [L "/"]], .star clsNS], "[PATH]") ]

/-- One step of the domain-level loop: `if re.search(pattern, text):
text = re.sub(pattern, replacement, text)`. -/
def applyLinkPattern (t : List Char) (pr : List RAtom × String) : List Char :=
  if searchRE pr.1 t then subRE pr.1 pr.2.data t else t

/-- `anonymize_all_links(text, anonymization_level)`. -/
def anonymize_all_links (text : String) (anonymization_level : String) : String :=
  if text == "" then text
  else if anonymization_level == "full" then
    String.mk (genericReplacements.foldl (fun t pr => subRE pr.1 pr.2.data t) text.data)
  else
    String.mk (linkPatterns.foldl applyLinkPattern text.data)

/-! ### Data model

Typed records mirroring the JSON shapes `app.py` manipulates (§ "Data
model" of the design).  `Option` marks key-existence: `none` models an
absent key. -/

structure Creator where
  name : Option String
  email : Option String
  deriving Repr, DecidableEq

structure QuotedMessageMetadata where
  creator : Option Creator
  text : Option String
  deriving Repr, DecidableEq

structure Attachment where
  original_name : Option String
  deriving Repr, DecidableEq

structure Reaction where
  /-- the `unicode` field of the `emoji` sub-object, when both exist -/
  emoji_unicode : Option String
  reactor_emails : Option (List String)
  deriving Repr, DecidableEq

structure Message where
  creator : Option Creator
  created_date : Option String
  text : Option String
  quoted_message_metadata : Option QuotedMessageMetadata
  attached_files : Option (List Attachment)
  reactions : Option (List Reaction)
  deriving Repr, DecidableEq

structure ChatDocument where
  messages : List Message
  deriving Repr, DecidableEq

/-- The two `st.session_state` settings `apply_anonymization` reads, made
explicit parameters (`link_anonymization` defaults to `True`, `link_level`
to `"domain"` in the source). -/
structure AppConfig where
  link_anonymization : Bool
  link_level : String
  deriving Repr, DecidableEq

/-! ### `apply_anonymization` -/

/-- The three-strategy substitution loop applied to a text field for each
`(original, replacement)` of the length-sorted mapping list: skip an entry
unless `original.lower() in text.lower()`; otherwise apply the
word-boundary pattern, then the punctuation/quote pattern, then — for
multi-word originals only — the unconditioned exact pattern.
(`apply_anonymization`, main message text; `parse_chat_message` uses the
same loop for its text and quote fields.) -/
def applyMappingStrategies (sorted_mappings : List (String × String))
    (text : List Char) : List Char :=
  sorted_mappings.foldl (fun t p =>
    if ciContains t p.1.data then
      let t1 := wordBoundarySub p.1.data p.2.data t
      let t2 := punctAdjacentSub p.1.data p.2.data t1
      if pySplitCount p.1.data > 1 then exactSub p.1.data p.2.data t2 else t2
    else t) text

/-- The quoted-text substitution loop of `apply_anonymization`: for every
mapping entry, the word-boundary pattern then the unconditioned exact
pattern, with no containment pre-check. -/
def applyQuotedPatterns (sorted_mappings : List (String × String))
    (text : List Char) : List Char :=
  sorted_mappings.foldl (fun t p =>
    exactSub p.1.data p.2.data (wordBoundarySub p.1.data p.2.data t)) text

/-- The attachment-filename loop of `apply_anonymization`: every mapping
entry is substituted with the unconditioned exact pattern. -/
def applyFilenamePatterns (sorted_mappings : List (String × String))
    (name : List Char) : List Char :=
  sorted_mappings.foldl (fun t p => exactSub p.1.data p.2.data t) name

/-- Step 1 of the per-message loop of `apply_anonymization`: the creator
name, replaced by exact dict lookup when present as a mapping key. -/
def anonymizeCreatorStep (name_mappings : List (String × String))
    (message : Message) : Message :=
  match message.creator with
  | some cr =>
    match cr.name with
    | some n =>
      match dictLookup name_mappings n with
      | some repl => { message with creator := some { cr with name := some repl } }
      | none => message
    | none => message
  | none => message

/-- Step 2 of the per-message loop: quoted creator name (exact dict
lookup) and quoted text (word-boundary + exact patterns, then the link
pass when enabled). -/
def anonymizeQuotedStep (cfg : AppConfig) (name_mappings : List (String × String))
    (sorted_mappings : List (String × String)) (message : Message) : Message :=
  match message.quoted_message_metadata with
  | some q =>
    let q :=
      match q.creator with
      | some qc =>
        match qc.name with
        | some n =>
          match dictLookup name_mappings n with
          | some repl => { q with creator := some { qc with name := some repl } }
          | none => q
        | none => q
      | none => q
    let q :=
      match q.text with
      | some t =>
        let t1 := String.mk (applyQuotedPatterns sorted_mappings t.data)
        let t2 := if cfg.link_anonymization then
            anonymize_all_links t1 cfg.link_level else t1
        { q with text := some t2 }
      | none => q
    { message with quoted_message_metadata := some q }
  | none => message

/-- Step 3 of the per-message loop: the main text, only when present and
truthy (non-empty): three-strategy loop, then the link pass when
enabled. -/
def anonymizeTextStep (cfg : AppConfig)
    (sorted_mappings : List (String × String)) (message : Message) : Message :=
  match message.text with
  | some t =>
    if t ≠ "" then
      let t1 := String.mk (applyMappingStrategies sorted_mappings t.data)
      let t2 := if cfg.link_anonymization then
          anonymize_all_links t1 cfg.link_level else t1
      { message with text := some t2 }
    else message
  | none => message

/-- Step 4 of the per-message loop: attachment names, each rewritten with
the unconditioned exact pattern for every mapping entry. -/
def anonymizeAttachmentsStep (sorted_mappings : List (String × String))
    (message : Message) : Message :=
  match message.attached_files with
  | some files =>
    { message with attached_files := some (files.map (fun a =>
        match a.original_name with
        | some fn =>
          { a with
            original_name :=
              some (String.mk (applyFilenamePatterns sorted_mappings fn.data)) }
        | none => a)) }
  | none => message

/-- Body of the per-message loop of `apply_anonymization`, its four
numbered steps in source order: creator name, quoted metadata, main text,
attachment names.  All other fields are left as they are. -/
def anonymizeMessage (cfg : AppConfig) (name_mappings : List (String × String))
    (sorted_mappings : List (String × String)) (message : Message) : Message :=
  anonymizeAttachmentsStep sorted_mappings
    (anonymizeTextStep cfg sorted_mappings
      (anonymizeQuotedStep cfg name_mappings sorted_mappings
        (anonymizeCreatorStep name_mappings message)))

/-- `apply_anonymization(data, name_mappings)` (success path): deep-copies
the document, sorts the mapping items by key length descending, and runs
the per-message loop on the copy. -/
def apply_anonymization (cfg : AppConfig) (data : ChatDocument)
    (name_mappings : List (String × String)) : ChatDocument :=
  let sorted_mappings := sortMappingsByLenDesc name_mappings
  { messages := data.messages.map (anonymizeMessage cfg name_mappings sorted_mappings) }

/-! ### A heap model for the mutation claim

`apply_anonymization` starts with `json.loads(json.dumps(data))`, a deep
copy sharing no structure with the caller's object, and every statement of
the function assigns into that copy (or into locals).  To state
non-mutation, the call is modelled as explicit state passing over a
two-field heap: the caller's object and the working copy; each processing
step rewrites only the `work` field, exactly as each Python statement
writes only through `anonymized_data`.  The returned pair is (caller's
object after the call, return value). -/

structure AnonHeap where
  /-- the object the caller passed as `data` -/
  caller : ChatDocument
  /-- the deep copy `anonymized_data` -/
  work : ChatDocument

instance : Inhabited Message := ⟨⟨none, none, none, none, none, none⟩⟩

/-- One message-processing step on the heap: index `i` of the copy's
message list is replaced by its anonymized form; the caller's object is
not addressed. -/
def anonStep (cfg : AppConfig) (name_mappings sorted_mappings : List (String × String))
    (h : AnonHeap) (i : Nat) : AnonHeap :=
  { h with
    work :=
      { messages :=
          h.work.messages.set i
            (anonymizeMessage cfg name_mappings sorted_mappings
              (h.work.messages.getD i default)) } }

/-- The full call as heap transformation: allocate the deep copy, fold the
per-message loop over it, return (caller's object, result).  On the
exception path the source returns `data` itself, also unmodified. -/
def apply_anonymization_call (cfg : AppConfig) (data : ChatDocument)
    (name_mappings : List (String × String)) : ChatDocument × ChatDocument :=
  let sorted_mappings := sortMappingsByLenDesc name_mappings
  let h0 : AnonHeap := { caller := data, work := data }
  let h1 := (List.range data.messages.length).foldl
    (anonStep cfg name_mappings sorted_mappings) h0
  (h1.caller, h1.work)

/-! ### `create_anonymization_mappings` and its helpers -/

/-- `DEFAULT_EMAIL_DOMAIN`. -/
def DEFAULT_EMAIL_DOMAIN : String := "example.com"

/-- `EMAIL_PATTERN = r'\b[A-Za-z0-9._%+-]+@[A-Za-z0-9.-]+\.[A-Z|a-z]{2,}\b'`. -/
def emailPatternAtoms : List RAtom :=
  [.wb, .plus clsLocal, L "@", .plus clsDom, L ".", .cls clsAlphaPipe,
    .cls clsAlphaPipe, .star clsAlphaPipe, .wb]

/-- `re.findall(pattern, text)` for a group-free pattern: the list of
matched substrings, leftmost and non-overlapping. -/
def findallAux (ats : List RAtom) : Nat → Option Char → List Char → List (List Char)
  | 0, _, _ => []
  | _ + 1, _, [] => []
  | fuel + 1, prev, c :: rest =>
    match matchHere ats prev (c :: rest) with
    | some s' =>
      if s'.length < rest.length + 1 then
        ((c :: rest).take (rest.length + 1 - s'.length)) ::
          findallAux ats fuel ((c :: rest).take (rest.length + 1 - s'.length)).getLast? s'
      else findallAux ats fuel (some c) rest
    | none => findallAux ats fuel (some c) rest

/-- `re.findall(pattern, text)`. -/
def findallRE (ats : List RAtom) (s : List Char) : List (List Char) :=
  findallAux ats s.length none s

/-- Python `str.strip()` (whitespace trimmed from both ends). -/
def pyStrip (s : String) : String :=
  String.mk (((s.data.dropWhile isPySpace).reverse.dropWhile isPySpace).reverse)

/-- Python `str.lower()` (ASCII fragment). -/
def pyLower (s : String) : String :=
  String.mk (s.data.map Char.toLower)

/-- Python set insertion, modelled as order-preserving deduplication (the
source sorts every set before iterating, so only membership matters). -/
def insertSet (l : List String) (x : String) : List String :=
  if l.contains x then l else l ++ [x]

/-- The structural validity filter of `_extract_entities_from_messages`:
`'@' in email and '.' in email.split('@')[1]`. -/
def validEmailShape (e : List Char) : Bool :=
  e.contains '@' && ((e.dropWhile (· ≠ '@')).drop 1).contains '.'

/-- `_extract_entities_from_messages(data)`: the set of trimmed non-empty
creator names and the set of lowercase-normalized valid email matches in
message texts (returned as insertion-ordered duplicate-free lists). -/
def extract_entities_from_messages (data : ChatDocument) :
    List String × List String :=
  data.messages.foldl (fun acc message =>
    let names :=
      match message.creator with
      | some cr =>
        match cr.name with
        | some n => if pyStrip n ≠ "" then insertSet acc.1 (pyStrip n) else acc.1
        | none => acc.1
      | none => acc.1
    let emails :=
      match message.text with
      | some t =>
        if t ≠ "" then
          ((findallRE emailPatternAtoms t.data).filter validEmailShape).foldl
            (fun es e => insertSet es (pyLower (pyStrip (String.mk e)))) acc.2
        else acc.2
      | none => acc.2
    (names, emails)) ([], [])

/-- Stable insertion for `sorted(names, key=str.lower)`. -/
def insertByLower (p : String) : List String → List String
  | [] => [p]
  | q :: rest =>
    if pyLower q < pyLower p then q :: insertByLower p rest else p :: q :: rest

/-- `sorted(names, key=str.lower)` (stable; the iteration order of the
underlying Python set — relevant only to ties of the lowered key — is
modelled as first-insertion order). -/
def pySortedByLower (l : List String) : List String :=
  l.foldr insertByLower []

/-- Stable insertion for `sorted(emails)`. -/
def insertByStr (p : String) : List String → List String
  | [] => [p]
  | q :: rest => if q < p then q :: insertByStr p rest else p :: q :: rest

/-- `sorted(emails)` (code-point lexicographic). -/
def pySortedStr (l : List String) : List String :=
  l.foldr insertByStr []

/-- `_create_name_mappings(names, custom_mappings, mode)`. -/
def create_name_mappings (names : List String)
    (custom_mappings : List (String × String)) (mode : String) :
    List (String × String) :=
  ((pySortedByLower names).foldl (fun acc name =>
    match acc with
    | (out, k) =>
      if mode == "manual" then
        match dictLookup custom_mappings name with
        | some v => (out ++ [(name, v)], k)
        | none => (out, k)
      else if mode == "mixed" then
        match dictLookup custom_mappings name with
        | some v => (out ++ [(name, v)], k)
        | none => (out ++ [(name, s!"Person {k}")], k + 1)
      else
        (out ++ [(name, s!"Person {k}")], k + 1)) ([], 1)).1

/-- `_create_email_mappings(emails, custom_mappings, mode)`. -/
def create_email_mappings (emails : List String)
    (custom_mappings : List (String × String)) (mode : String) :
    List (String × String) :=
  ((pySortedStr emails).foldl (fun acc email =>
    match acc with
    | (out, k) =>
      if mode == "manual" then
        match dictLookup custom_mappings email with
        | some v => (out ++ [(email, v)], k)
        | none => (out, k)
      else if mode == "mixed" then
        match dictLookup custom_mappings email with
        | some v => (out ++ [(email, v)], k)
        | none => (out ++ [(email, s!"person{k}@{DEFAULT_EMAIL_DOMAIN}")], k + 1)
      else
        (out ++ [(email, s!"person{k}@{DEFAULT_EMAIL_DOMAIN}")], k + 1)) ([], 1)).1

/-- Python `dict.update`: existing keys keep their position and take the
new value; new keys are appended in the update's order. -/
def dictUpdate (base upd : List (String × String)) : List (String × String) :=
  base.map (fun p => (p.1, (dictLookup upd p.1).getD p.2)) ++
    upd.filter (fun p => dictLookup base p.1 = none)

/-- `create_anonymization_mappings(data, custom_mappings, mode)`.  A mode
outside the supported set raises `ValueError`, modelled as `.error`; the
source's broad `except` around entity extraction cannot fire in the model
(no Python-level exceptions exist here), so the success path is the `.ok`
value. -/
def create_anonymization_mappings (data : ChatDocument)
    (custom_mappings : Option (List (String × String)) := none)
    (mode : String := "automatic") : Except String (List (String × String)) :=
  if !(["automatic", "manual", "mixed"].contains mode) then
    .error ("Invalid mode " ++ mode ++ ". Must be automatic, manual, or mixed")
  else
    let custom := custom_mappings.getD []
    let ne := extract_entities_from_messages data
    let name_mappings := create_name_mappings ne.1 custom mode
    let email_mappings := create_email_mappings ne.2 custom mode
    .ok (dictUpdate name_mappings email_mappings)

/-! ### `datetime.strptime` with the fixed chat format

`parse_chat_message` parses `created_date` with
`datetime.strptime(date_str_clean, "%A, %B %d, %Y %I:%M:%S %p %Z")` after
replacing `" at "` with `" "` and narrow no-break spaces with spaces.
CPython's `_strptime` compiles the format into one case-insensitive regex
(whitespace runs in the format match `\s+`; each directive is an ordered
alternation), matches it at the start of the string, requires the match to
span the whole string, and then builds a `datetime`, which validates the
day against the month length and rejects leap seconds.  That pipeline is
modelled with an ordered nondeterministic parser whose first full parse is
taken, mirroring the regex's backtracking order.  `%Z` accepts `UTC`/`GMT`
(the locale-independent timezone names). -/

structure PyDateTime where
  year : Nat
  month : Nat
  day : Nat
  hour : Nat
  minute : Nat
  second : Nat
  deriving Repr, DecidableEq

instance : Inhabited PyDateTime := ⟨⟨1970, 1, 1, 0, 0, 0⟩⟩

/-- Python `str.replace(old, new)` (case-sensitive, leftmost,
non-overlapping). -/
def pyReplaceAux (needle repl : List Char) : Nat → List Char → List Char
  | 0, s => s
  | _ + 1, [] => []
  | fuel + 1, c :: rest =>
    if !needle.isEmpty && needle.isPrefixOf (c :: rest) then
      repl ++ pyReplaceAux needle repl fuel ((c :: rest).drop needle.length)
    else c :: pyReplaceAux needle repl fuel rest

/-- Python `str.replace(old, new)`. -/
def pyReplace (s old new : String) : String :=
  String.mk (pyReplaceAux old.data new.data s.data.length s.data)

/-- Ordered alternation of case-insensitive literals, each with a value:
all alternatives that match here, in the given (regex alternation) order. -/
def pAlts {α : Type} (alts : List (String × α)) (s : List Char) :
    List (α × List Char) :=
  alts.filterMap (fun a =>
    if ciIsPrefixOf a.1.data s then some (a.2, s.drop a.1.data.length) else none)

/-- `\s+` between format tokens: one or more whitespace characters,
greedy-first backtracking order. -/
def pWSPlus (s : List Char) : List (Unit × List Char) :=
  (List.range (npfx isPySpace s)).map (fun i => ((), s.drop (npfx isPySpace s - i)))

/-- Sequencing of ordered nondeterministic parses. -/
def pSeq {α β : Type} (xs : List (α × List Char))
    (f : α → List Char → List (β × List Char)) : List (β × List Char) :=
  xs.flatMap (fun p => f p.1 p.2)

/-- Two-digit alternatives `lo..hi` (zero-padded where Python's directive
regex is), as (literal, value) pairs. -/
def numAlts (pad : Bool) (lo hi : Nat) : List (String × Nat) :=
  (List.range (hi + 1 - lo)).map (fun i =>
    let n := lo + i
    (if pad && n < 10 then "0" ++ toString n else toString n, n))

/-- `%A` alternatives (weekday consumed, value unused). -/
def weekdayAlts : List (String × Unit) :=
  [("Wednesday", ()), ("Saturday", ()), ("Thursday", ()), ("Tuesday", ()),
    ("Monday", ()), ("Friday", ()), ("Sunday", ())]

/-- `%B` alternatives with month numbers. -/
def monthAlts : List (String × Nat) :=
  [("September", 9), ("February", 2), ("November", 11), ("December", 12),
    ("January", 1), ("October", 10), ("August", 8), ("March", 3),
    ("April", 4), ("June", 6), ("July", 7), ("May", 5)]

/-- `%d`: `3[0-1]|[1-2]\d|0[1-9]|[1-9]| [1-9]`. -/
def dayAlts : List (String × Nat) :=
  numAlts false 30 31 ++ numAlts false 10 29 ++ numAlts true 1 9 ++
    numAlts false 1 9 ++ (numAlts false 1 9).map (fun a => (" " ++ a.1, a.2))

/-- `%I`: `1[0-2]|0[1-9]|[1-9]`. -/
def hourAlts : List (String × Nat) :=
  numAlts false 10 12 ++ numAlts true 1 9 ++ numAlts false 1 9

/-- `%M`: `[0-5]\d|\d`. -/
def minuteAlts : List (String × Nat) :=
  numAlts true 0 59 ++ numAlts false 0 9

/-- `%S`: `6[0-1]|[0-5]\d|\d`. -/
def secondAlts : List (String × Nat) :=
  numAlts false 60 61 ++ numAlts true 0 59 ++ numAlts false 0 9

/-- `%Y`: exactly four digits. -/
def pYear (s : List Char) : List (Nat × List Char) :=
  let ds := s.take 4
  if ds.length == 4 && ds.all Char.isDigit then
    [(ds.foldl (fun n c => n * 10 + (c.toNat - 48)) 0, s.drop 4)]
  else []

/-- All parses of the cleaned date string under the fixed format, in
backtracking order; values are (month, day, year, hour₁₂, minute, second,
is-pm). -/
def strptimeParses (s : List Char) :
    List ((Nat × Nat × Nat × Nat × Nat × Nat × Bool) × List Char) :=
  pSeq (pAlts weekdayAlts s) (fun _ s => pSeq (pAlts [(",", ())] s) (fun _ s =>
  pSeq (pWSPlus s) (fun _ s => pSeq (pAlts monthAlts s) (fun mo s =>
  pSeq (pWSPlus s) (fun _ s => pSeq (pAlts dayAlts s) (fun d s =>
  pSeq (pAlts [(",", ())] s) (fun _ s => pSeq (pWSPlus s) (fun _ s =>
  pSeq (pYear s) (fun y s => pSeq (pWSPlus s) (fun _ s =>
  pSeq (pAlts hourAlts s) (fun h s => pSeq (pAlts [(":", ())] s) (fun _ s =>
  pSeq (pAlts minuteAlts s) (fun mi s => pSeq (pAlts [(":", ())] s) (fun _ s =>
  pSeq (pAlts secondAlts s) (fun sec s => pSeq (pWSPlus s) (fun _ s =>
  pSeq (pAlts [("am", false), ("pm", true)] s) (fun pm s =>
  pSeq (pWSPlus s) (fun _ s =>
  pSeq (pAlts [("UTC", ()), ("GMT", ())] s) (fun _ s =>
    [((mo, d, y, h, mi, sec, pm), s)])))))))))))))))))))

/-- Gregorian month length. -/
def daysInMonth (y m : Nat) : Nat :=
  if m == 2 then
    if (y % 4 == 0 && y % 100 != 0) || y % 400 == 0 then 29 else 28
  else if m == 4 || m == 6 || m == 9 || m == 11 then 30 else 31

/-- `datetime.strptime(date_str_clean, "%A, %B %d, %Y %I:%M:%S %p %Z")`:
`none` models the `ValueError` raised when the regex does not match, does
not span the whole string, or the `datetime` constructor rejects the
field values (day beyond month length, leap second, year 0). -/
def strptimeChat (s : String) : Option PyDateTime :=
  match (strptimeParses s.data).head? with
  | none => none
  | some (vals, rest) =>
    if !rest.isEmpty then none
    else
      match vals with
      | (mo, d, y, h, mi, sec, pm) =>
        let hour := if pm then (if h == 12 then 12 else h + 12)
          else (if h == 12 then 0 else h)
        if y == 0 || d > daysInMonth y mo || sec > 59 then none
        else some ⟨y, mo, d, hour, mi, sec⟩

/-- The cleaning applied before parsing:
`date_str.replace(" at ", " ").replace(" ", " ")`. -/
def cleanDateStr (s : String) : String :=
  pyReplace (pyReplace s " at " " ") " " " "

/-! ### `parse_chat_message` -/

/-- The record `parse_chat_message` returns for a conversational message. -/
structure ParsedMessage where
  name : String
  timestamp : PyDateTime
  full_text : String
  original_name : String
  deriving Repr, DecidableEq

/-- Python truthiness of the optional `name_mappings` argument: not `None`
and a non-empty dict. -/
def mappingsTruthy (nm : Option (List (String × String))) : Bool :=
  match nm with
  | none => false
  | some l => !l.isEmpty

/-- The attachment block: one attachment line per entry, names
length-limited to 100 characters. -/
def attachmentMd (message : Message) : String :=
  match message.attached_files with
  | some files =>
    files.foldl (fun acc f =>
      let nm := f.original_name.getD "Attached File"
      acc ++ "\n\n> 📎 **Attachment:** `" ++ String.mk (nm.data.take 100) ++ "`") ""
  | none => ""

/-- The reaction summary: `emoji count` for each reaction with a non-zero
reactor count, space-joined, behind a blank line — empty when no reaction
qualifies. -/
def reactionsMd (message : Message) : String :=
  match message.reactions with
  | some rs =>
    let reaction_list := rs.foldl (fun acc r =>
      let emoji := r.emoji_unicode.getD "▫️"
      let count := (r.reactor_emails.getD []).length
      if count > 0 then acc ++ [emoji ++ " " ++ toString count] else acc) []
    if reaction_list.isEmpty then "" else "\n\n" ++ String.intercalate " " reaction_list
  | none => ""

/-- The quoted-message block: author resolved through the mapping table
(default `Someone`), quote text stripped, rewritten with the same
three-strategy loop as the body, then hard-truncated to 100 characters
with an ellipsis; empty when the quote text is absent or blank. -/
def quoteMd (nm : Option (List (String × String))) (message : Message) : String :=
  match message.quoted_message_metadata with
  | some q =>
    let quote_author :=
      match q.creator with
      | some c => c.name.getD "Someone"
      | none => "Someone"
    let quote_author :=
      if mappingsTruthy nm then
        match dictLookup (nm.getD []) quote_author with
        | some v => v
        | none => quote_author
      else quote_author
    let quote_text := q.text.getD "..."
    if pyStrip quote_text ≠ "" then
      let quote_text := pyStrip quote_text
      let quote_text :=
        if mappingsTruthy nm then
          String.mk (applyMappingStrategies (sortMappingsByLenDesc (nm.getD []))
            quote_text.data)
        else quote_text
      let quote_text :=
        if quote_text.length > 100 then String.mk (quote_text.data.take 100) ++ "..."
        else quote_text
      "> **" ++ quote_author ++ " said:**\n> " ++ quote_text ++ "\n\n"
    else ""
  | none => ""

/-- `parse_chat_message(message, name_mappings)`.  `now` is the value
`datetime.now()` would produce, made an explicit parameter; `none` models
the `None` return for system messages (no `creator.name`). -/
def parse_chat_message (now : PyDateTime) (message : Message)
    (name_mappings : Option (List (String × String)) := none) :
    Option ParsedMessage :=
  match message.creator with
  | none => none
  | some cr =>
    match cr.name with
    | none => none
    | some sender0 =>
      let original_name := sender0
      let sender_name :=
        if mappingsTruthy name_mappings then
          match dictLookup (name_mappings.getD []) sender0 with
          | some v => v
          | none => sender0
        else sender0
      let timestamp :=
        match message.created_date with
        | none => now
        | some d =>
          match strptimeChat (cleanDateStr d) with
          | some ts => ts
          | none => now
      let text := message.text.getD ""
      let text :=
        if mappingsTruthy name_mappings && text ≠ "" then
          String.mk (applyMappingStrategies
            (sortMappingsByLenDesc (name_mappings.getD [])) text.data)
        else text
      some { name := sender_name, timestamp := timestamp,
             full_text := quoteMd name_mappings message ++ text ++
               attachmentMd message ++ reactionsMd message,
             original_name := original_name }

/-- The accumulator step both `_create_name_mappings` and
`_create_email_mappings` perform per entity in manual mode: append
`(entity, custom[entity])` when the entity is a custom-mapping key, keep
the counter untouched. -/
def manualStep (custom : List (String × String))
    (acc : List (String × String) × Nat) (name : String) :
    List (String × String) × Nat :=
  match dictLookup custom name with
  | some v => (acc.1 ++ [(name, v)], acc.2)
  | none => acc

/-! ### Verification infrastructure for the link-pass idempotence proof

Predicates over the regex grammar used to reason about the fixed pattern
table: `rejList b ats` states that no atom of the pattern can consume the
character `b` (and that the pattern contains no `\b` assertion);
`leadLit` states that the pattern starts with a non-empty literal;
`PatOK` packages the structural facts that hold of every entry of
`linkPatterns`. -/

mutual

/-- Every atom of the list rejects the character `b`: no atom can consume
`b`, and no `\b` assertion occurs in the pattern. -/
def rejList (b : Char) : List RAtom → Bool
  | [] => true
  | a :: l => rejAtom b a && rejList b l

/-- A single atom rejects the character `b`. -/
def rejAtom (b : Char) : RAtom → Bool
  | .lit cs => cs.all (fun c => !charEqCI c b)
  | .cls p => !p b
  | .star p => !p b
  | .plus p => !p b
  | .opt g => rejList b g
  | .alt g1 g2 => rejList b g1 && rejList b g2
  | .wb => false

end

/-- The pattern starts with a non-empty literal. -/
def leadLit : List RAtom → Bool
  | .lit (_ :: _) :: _ => true
  | _ => false

/-- The structural facts used about every entry of `linkPatterns`: the
pattern is a mandatory part followed by a trailing `[^\s]*` whose
mandatory atoms reject `[`, the whole pattern rejects every whitespace
character (hence contains no `\b`), and it starts with a non-empty
literal. -/
def PatOK (q : List RAtom × String) : Prop :=
  (∃ mand, q.1 = mand ++ [.star clsNS] ∧ rejList (Char.ofNat 91) mand = true) ∧
  (∀ b, isPySpace b = true → rejList b q.1 = true) ∧ leadLit q.1 = true

/-- The tuple of message observations that the anonymizer must not
change: `created_date`, `reactions`, creator presence and email, text
presence, quoted-metadata presence with its creator email and text
presence, and the attachment list's shape (`original_name` presence per
entry, hence also length and order). -/
def msgObs (msg : Message) :=
  (msg.created_date, msg.reactions, msg.creator.map Creator.email,
    msg.text.isSome,
    msg.quoted_message_metadata.map
      (fun q => (q.creator.map Creator.email, q.text.isSome)),
    msg.attached_files.map (fun l => l.map (fun a => a.original_name.isSome)))

/-- The invariant of the domain-level loop on a whitespace-free word `w`:
after the patterns `ps` of the table have been applied, the state is
either `w` itself with no pattern of `ps` matching anywhere in it, or a
prefix of `w` followed by one replacement tag of the table, such that no
mandatory part of a pattern of `ps` matches anywhere strictly inside
that prefix. -/
def WordInv (w : List Char) (ps : List (List RAtom × String))
    (s : List Char) : Prop :=
  (s = w ∧ ∀ q ∈ ps, searchRE q.1 w = false) ∨
  (∃ n p, n ≤ w.length ∧ p ∈ linkPatterns ∧ s = w.take n ++ p.2.data ∧
    ∀ q ∈ ps, ∀ mand, q.1 = mand ++ [.star clsNS] →
      ∀ i < n, matchAtoms mand none ((w.take n).drop i) = [])

/-! ### Theorems -/

set_option maxRecDepth 100000

theorem anonStep_caller (cfg : AppConfig) (nm sm : List (String × String))
    (h : AnonHeap) (i : Nat) : (anonStep cfg nm sm h i).caller = h.caller := rfl

theorem foldl_anonStep_caller (cfg : AppConfig) (nm sm : List (String × String))
    (l : List Nat) (h : AnonHeap) :
    (l.foldl (anonStep cfg nm sm) h).caller = h.caller := by
  induction l generalizing h with
  | nil => rfl
  | cons i l ih => simpa [List.foldl_cons, anonStep_caller] using ih (anonStep cfg nm sm h i)

/-- C1: for every chat document `D` and mapping table `M`,
`apply_anonymization(D, M)` does not mutate `D`: modelling the call as an
explicit heap transformation (deep copy in `work`, caller's object in
`caller`, every statement writing only to `work`), the caller's object
after the call is structurally equal to the object passed in.  The
exception path of the source returns `data` without having written to it,
so it mutates nothing either. -/
theorem c1_apply_anonymization_does_not_mutate_input (cfg : AppConfig)
    (data : ChatDocument) (m : List (String × String)) :
    (apply_anonymization_call cfg data m).1 = data := by
  unfold apply_anonymization_call
  exact foldl_anonStep_caller ..

/-- C4 counterexample: `create_anonymization_mappings` called with the
unrecognized mode `"bogus"` raises `ValueError` (modelled as `.error`)
instead of falling back to manual behavior and returning a mapping
table — the claim is false at this input. -/
theorem c4_unknown_mode_errors_at_bogus :
    create_anonymization_mappings ⟨[]⟩ none "bogus" =
      .error "Invalid mode bogus. Must be automatic, manual, or mixed" := rfl

theorem contains_eq_false_of_not_mem {l : List String} {x : String}
    (h : x ∉ l) : l.contains x = false := by
  simpa using h

/-- C4 (amended): for every mode value outside `{"automatic", "manual",
"mixed"}`, `create_anonymization_mappings` raises `ValueError` (the
request fails); there is no fallback to manual behavior. -/
theorem c4_unsupported_mode_raises_value_error (data : ChatDocument)
    (custom : Option (List (String × String))) (mode : String)
    (h : mode ∉ (["automatic", "manual", "mixed"] : List String)) :
    ∃ e, create_anonymization_mappings data custom mode = .error e := by
  refine ⟨"Invalid mode " ++ mode ++ ". Must be automatic, manual, or mixed", ?_⟩
  unfold create_anonymization_mappings
  rw [contains_eq_false_of_not_mem h]
  simp

theorem c4_unsupported_mode_raises_value_error_witness :
    ∃ e, create_anonymization_mappings ⟨[]⟩ none "bogus" = .error e :=
  c4_unsupported_mode_raises_value_error ⟨[]⟩ none "bogus" (by decide)

/-- C5 counterexample: with the email-shaped mapping entry
`a@b.com ↦ x@y.com`, the message text `xa@b.comy` — where the occurrence
directly adjoins the word characters `x` and `y` — is left unchanged by
`apply_anonymization`, because email-shaped keys get no unconditioned
exact substitution there: the claim's "no word-boundary requirement" is
false at this input. -/
theorem c5_email_key_adjoining_word_chars_not_replaced :
    (apply_anonymization ⟨true, "domain"⟩
        ⟨[⟨none, none, some "xa@b.comy", none, none, none⟩]⟩
        [("a@b.com", "x@y.com")]).messages =
      [⟨none, none, some "xa@b.comy", none, none, none⟩] ∧
    dictLookup [("a@b.com", "x@y.com")] "a@b.com" = some "x@y.com" := by
  constructor
  · rfl
  · rfl

/-- C5 (amended): an email-shaped mapping key is handled by the same
strategies as any other single-word key: occurrences at `\b` word
boundaries — for instance adjoining punctuation such as `:` and `!` —
are replaced case-insensitively, but occurrences directly adjoining word
characters are not replaced. -/
theorem c5_email_key_word_boundary_behavior :
    (apply_anonymization ⟨true, "domain"⟩
        ⟨[⟨none, none, some "contact:a@b.com!", none, none, none⟩]⟩
        [("a@b.com", "x@y.com")]).messages =
      [⟨none, none, some "contact:x@y.com!", none, none, none⟩] ∧
    (apply_anonymization ⟨true, "domain"⟩
        ⟨[⟨none, none, some "xa@b.comy", none, none, none⟩]⟩
        [("a@b.com", "x@y.com")]).messages =
      [⟨none, none, some "xa@b.comy", none, none, none⟩] := by
  constructor
  · rfl
  · rfl

/-- C6: longest-original-first precedence.  For the mapping
`{"John": "P1", "John Smith": "P2"}` — in either dict insertion order —
`apply_anonymization` rewrites the message text `"John Smith said hi"` to
`"P2 said hi"` (never `"P1 Smith said hi"`): the entries are applied
sorted by length of the original descending, so the longer key is
substituted before the shorter key can touch its substring. -/
theorem c6_longest_original_first_precedence :
    (apply_anonymization ⟨true, "domain"⟩
        ⟨[⟨none, none, some "John Smith said hi", none, none, none⟩]⟩
        [("John", "P1"), ("John Smith", "P2")]).messages =
      [⟨none, none, some "P2 said hi", none, none, none⟩] ∧
    (apply_anonymization ⟨true, "domain"⟩
        ⟨[⟨none, none, some "John Smith said hi", none, none, none⟩]⟩
        [("John Smith", "P2"), ("John", "P1")]).messages =
      [⟨none, none, some "P2 said hi", none, none, none⟩] ∧
    sortMappingsByLenDesc [("John", "P1"), ("John Smith", "P2")] =
      [("John Smith", "P2"), ("John", "P1")] := by
  refine ⟨?_, ?_, ?_⟩
  · rfl
  · rfl
  · rfl

theorem msgObs_anonymizeCreatorStep (nm : List (String × String))
    (msg : Message) : msgObs (anonymizeCreatorStep nm msg) = msgObs msg := by
  unfold anonymizeCreatorStep
  repeat' split
  all_goals simp_all [msgObs]

theorem msgObs_anonymizeQuotedStep (cfg : AppConfig)
    (nm sm : List (String × String)) (msg : Message) :
    msgObs (anonymizeQuotedStep cfg nm sm msg) = msgObs msg := by
  unfold anonymizeQuotedStep
  repeat' split
  all_goals simp_all [msgObs]
  all_goals repeat' split
  all_goals simp_all

theorem msgObs_anonymizeTextStep (cfg : AppConfig)
    (sm : List (String × String)) (msg : Message) :
    msgObs (anonymizeTextStep cfg sm msg) = msgObs msg := by
  unfold anonymizeTextStep
  repeat' split
  all_goals simp_all [msgObs]

theorem msgObs_anonymizeAttachmentsStep (sm : List (String × String))
    (msg : Message) : msgObs (anonymizeAttachmentsStep sm msg) = msgObs msg := by
  unfold anonymizeAttachmentsStep
  split
  · rename_i files heq
    simp only [msgObs, Prod.mk.injEq]
    refine ⟨trivial, trivial, trivial, trivial, trivial, ?_⟩
    rw [heq]
    simp only [Option.map_some', Option.some.injEq, List.map_map]
    refine List.map_congr_left ?_
    intro a _
    cases h2 : a.original_name <;> simp [h2]
  · rfl

theorem msgObs_anonymizeMessage (cfg : AppConfig)
    (nm sm : List (String × String)) (msg : Message) :
    msgObs (anonymizeMessage cfg nm sm msg) = msgObs msg := by
  unfold anonymizeMessage
  rw [msgObs_anonymizeAttachmentsStep, msgObs_anonymizeTextStep,
    msgObs_anonymizeQuotedStep, msgObs_anonymizeCreatorStep]

theorem anonymizeMessage_reactions (cfg : AppConfig)
    (nm sm : List (String × String)) (msg : Message) :
    (anonymizeMessage cfg nm sm msg).reactions = msg.reactions :=
  congrArg (fun t => t.2.1) (msgObs_anonymizeMessage cfg nm sm msg)

theorem anonymizeMessage_created_date (cfg : AppConfig)
    (nm sm : List (String × String)) (msg : Message) :
    (anonymizeMessage cfg nm sm msg).created_date = msg.created_date :=
  congrArg (fun t => t.1) (msgObs_anonymizeMessage cfg nm sm msg)

theorem anonymizeMessage_creator_email (cfg : AppConfig)
    (nm sm : List (String × String)) (msg : Message) :
    (anonymizeMessage cfg nm sm msg).creator.map Creator.email =
      msg.creator.map Creator.email :=
  congrArg (fun t => t.2.2.1) (msgObs_anonymizeMessage cfg nm sm msg)

theorem anonymizeMessage_text_isSome (cfg : AppConfig)
    (nm sm : List (String × String)) (msg : Message) :
    (anonymizeMessage cfg nm sm msg).text.isSome = msg.text.isSome :=
  congrArg (fun t => t.2.2.2.1) (msgObs_anonymizeMessage cfg nm sm msg)

theorem anonymizeMessage_quoted (cfg : AppConfig)
    (nm sm : List (String × String)) (msg : Message) :
    (anonymizeMessage cfg nm sm msg).quoted_message_metadata.map
        (fun q => (q.creator.map Creator.email, q.text.isSome)) =
      msg.quoted_message_metadata.map
        (fun q => (q.creator.map Creator.email, q.text.isSome)) :=
  congrArg (fun t => t.2.2.2.2.1) (msgObs_anonymizeMessage cfg nm sm msg)

theorem anonymizeMessage_attachments (cfg : AppConfig)
    (nm sm : List (String × String)) (msg : Message) :
    (anonymizeMessage cfg nm sm msg).attached_files.map
        (fun l => l.map (fun a => a.original_name.isSome)) =
      msg.attached_files.map (fun l => l.map (fun a => a.original_name.isSome)) :=
  congrArg (fun t => t.2.2.2.2.2) (msgObs_anonymizeMessage cfg nm sm msg)

/-- C2 counterexample: a document whose single message has a reaction with
reactor email `a@b.com`, and a mapping table containing `a@b.com ↦
x@y.com`: `apply_anonymization` returns the reaction list unchanged —
the entry present as a mapping key is not replaced by its mapped
replacement, refuting the claim at this input. -/
theorem c2_reactor_email_not_substituted_at_input :
    (apply_anonymization ⟨true, "domain"⟩
        ⟨[⟨none, none, none, none, none, some [⟨some "👍", some ["a@b.com"]⟩]⟩]⟩
        [("a@b.com", "x@y.com")]).messages =
      [⟨none, none, none, none, none, some [⟨some "👍", some ["a@b.com"]⟩]⟩] ∧
    dictLookup [("a@b.com", "x@y.com")] "a@b.com" = some "x@y.com" ∧
    "x@y.com" ≠ "a@b.com" :=
  ⟨rfl, rfl, by decide⟩

/-- C2 (amended): for every document, mapping table and configuration, the
Document Anonymizer leaves every message's `reactions` field — including
all `reactor_emails` lists — entirely unchanged: `apply_anonymization`
contains no reaction-processing step. -/
theorem c2_reactions_left_unchanged (cfg : AppConfig) (data : ChatDocument)
    (m : List (String × String)) :
    (apply_anonymization cfg data m).messages.map Message.reactions =
      data.messages.map Message.reactions := by
  unfold apply_anonymization
  rw [List.map_map]
  exact List.map_congr_left (fun msg _ => anonymizeMessage_reactions ..)

/-- C9: a message that has a creator name but whose `created_date` is
absent or does not parse under the fixed timestamp format is still
returned as a normalized record (not dropped), with the current wall-clock
time — the explicit `now` parameter standing for `datetime.now()` —
substituted as its timestamp.  (The warning the source prints is a no-op
side effect outside the model.) -/
theorem c9_unparsable_date_falls_back_to_now (now : PyDateTime)
    (message : Message) (nm : Option (List (String × String)))
    (cr : Creator) (n : String)
    (hc : message.creator = some cr) (hn : cr.name = some n)
    (hd : message.created_date = none ∨
      ∀ d, message.created_date = some d → strptimeChat (cleanDateStr d) = none) :
    ∃ r, parse_chat_message now message nm = some r ∧ r.timestamp = now := by
  unfold parse_chat_message
  rw [hc]
  dsimp only
  rw [hn]
  dsimp only
  rcases hd with hd | hd
  · rw [hd]
    exact ⟨_, rfl, rfl⟩
  · cases hmd : message.created_date with
    | none => exact ⟨_, rfl, rfl⟩
    | some d =>
      have h2 := hd d hmd
      dsimp only
      rw [h2]
      exact ⟨_, rfl, rfl⟩

theorem c9_unparsable_date_falls_back_to_now_witness :
    ∃ r, parse_chat_message ⟨2025, 1, 1, 12, 0, 0⟩
        ⟨some ⟨some "Alice", none⟩, some "not a date", none, none, none, none⟩
        none = some r ∧ r.timestamp = ⟨2025, 1, 1, 12, 0, 0⟩ :=
  c9_unparsable_date_falls_back_to_now ⟨2025, 1, 1, 12, 0, 0⟩
    ⟨some ⟨some "Alice", none⟩, some "not a date", none, none, none, none⟩
    none ⟨some "Alice", none⟩ "Alice" rfl rfl
    (Or.inr (fun d hd => by cases hd; rfl))

/-- C10: for every document, mapping table and configuration, the document
returned by `apply_anonymization` (success path) has exactly as many
messages, in the same order, and every field other than creator name,
quoted-message creator name, quoted-message text, main message text and
attachment `original_name` is equal to its input value: `created_date`
and `reactions` (hence all reactor emails) are untouched, the creator is
present iff it was and keeps its `email`, the quoted metadata is present
iff it was with its creator's email and its text's presence preserved,
the main text's presence is preserved, and the attachment list keeps its
length, order and `original_name`-presence per entry. -/
theorem c10_apply_anonymization_frame (cfg : AppConfig) (data : ChatDocument)
    (m : List (String × String)) :
    (apply_anonymization cfg data m).messages.length = data.messages.length ∧
    (apply_anonymization cfg data m).messages.map Message.created_date =
      data.messages.map Message.created_date ∧
    (apply_anonymization cfg data m).messages.map Message.reactions =
      data.messages.map Message.reactions ∧
    (apply_anonymization cfg data m).messages.map
        (fun msg => msg.creator.map Creator.email) =
      data.messages.map (fun msg => msg.creator.map Creator.email) ∧
    (apply_anonymization cfg data m).messages.map (fun msg => msg.text.isSome) =
      data.messages.map (fun msg => msg.text.isSome) ∧
    (apply_anonymization cfg data m).messages.map
        (fun msg => msg.quoted_message_metadata.map
          (fun q => (q.creator.map Creator.email, q.text.isSome))) =
      data.messages.map (fun msg => msg.quoted_message_metadata.map
        (fun q => (q.creator.map Creator.email, q.text.isSome))) ∧
    (apply_anonymization cfg data m).messages.map
        (fun msg => msg.attached_files.map
          (fun l => l.map (fun a => a.original_name.isSome))) =
      data.messages.map (fun msg => msg.attached_files.map
        (fun l => l.map (fun a => a.original_name.isSome))) := by
  unfold apply_anonymization
  refine ⟨by simp, ?_, ?_, ?_, ?_, ?_, ?_⟩ <;>
    (rw [List.map_map]
     refine List.map_congr_left (fun msg _ => ?_))
  · exact anonymizeMessage_created_date ..
  · exact anonymizeMessage_reactions ..
  · exact anonymizeMessage_creator_email ..
  · exact anonymizeMessage_text_isSome ..
  · exact anonymizeMessage_quoted ..
  · exact anonymizeMessage_attachments ..

/-- C3 counterexample: a document whose only creator is `Alice` and the
caller-supplied custom mapping `{Bob ↦ X}`: manual mode returns the empty
table, not the supplied mapping — a pair whose original does not occur in
the document is dropped, refuting "the output is exactly the caller's
mapping". -/
theorem c3_manual_not_exact_copy_at_input :
    create_anonymization_mappings
        ⟨[⟨some ⟨some "Alice", none⟩, none, none, none, none, none⟩]⟩
        (some [("Bob", "X")]) "manual" = .ok [] ∧
    ([] : List (String × String)) ≠ [("Bob", "X")] :=
  ⟨rfl, by decide⟩

theorem mem_insertByLower {x p : String} {l : List String} :
    x ∈ insertByLower p l ↔ x = p ∨ x ∈ l := by
  induction l with
  | nil => simp [insertByLower]
  | cons q rest ih =>
    unfold insertByLower
    split
    · simp only [List.mem_cons, ih]
      tauto
    · simp only [List.mem_cons]

theorem mem_pySortedByLower {x : String} {l : List String} :
    x ∈ pySortedByLower l ↔ x ∈ l := by
  induction l with
  | nil => simp [pySortedByLower]
  | cons q rest ih =>
    unfold pySortedByLower at *
    simp only [List.foldr_cons, mem_insertByLower, ih, List.mem_cons]

theorem mem_insertByStr {x p : String} {l : List String} :
    x ∈ insertByStr p l ↔ x = p ∨ x ∈ l := by
  induction l with
  | nil => simp [insertByStr]
  | cons q rest ih =>
    unfold insertByStr
    split
    · simp only [List.mem_cons, ih]
      tauto
    · simp only [List.mem_cons]

theorem mem_pySortedStr {x : String} {l : List String} :
    x ∈ pySortedStr l ↔ x ∈ l := by
  induction l with
  | nil => simp [pySortedStr]
  | cons q rest ih =>
    unfold pySortedStr at *
    simp only [List.foldr_cons, mem_insertByStr, ih, List.mem_cons]

theorem dictLookup_eq_some_mem {m : List (String × String)} {k v : String}
    (h : dictLookup m k = some v) : (k, v) ∈ m := by
  unfold dictLookup at h
  cases hf : m.find? (fun p => p.1 == k) with
  | none => rw [hf] at h; cases h
  | some q =>
    rw [hf] at h
    have hq := List.find?_some hf
    have hm := List.mem_of_find?_eq_some hf
    simp only [Option.map_some', Option.some.injEq] at h
    have : q.1 = k := by simpa using hq
    rw [← h, ← this]
    exact hm

theorem manualStep_foldl (custom : List (String × String)) (l : List String) :
    ∀ (out : List (String × String)) (k : Nat),
    (List.foldl (manualStep custom) (out, k) l).1 =
      out ++ l.filterMap (fun n => (dictLookup custom n).map (fun v => (n, v))) := by
  induction l with
  | nil => intro out k; simp
  | cons n rest ih =>
    intro out k
    rw [List.foldl_cons, List.filterMap_cons]
    cases h : dictLookup custom n with
    | some v => simp [manualStep, h, ih]
    | none => simp [manualStep, h, ih]

/-- In manual mode, `_create_name_mappings` is the restriction of the
custom mapping to the (sorted) extracted names. -/
theorem create_name_mappings_manual (names : List String)
    (custom : List (String × String)) :
    create_name_mappings names custom "manual" =
      (pySortedByLower names).filterMap
        (fun n => (dictLookup custom n).map (fun v => (n, v))) := by
  unfold create_name_mappings
  rw [List.foldl_ext _ (manualStep custom) (([], 1) : List (String × String) × Nat)
      (fun acc x _ => by rcases acc with ⟨out, k⟩; simp [manualStep])]
  exact manualStep_foldl custom (pySortedByLower names) [] 1

/-- In manual mode, `_create_email_mappings` is the restriction of the
custom mapping to the (sorted) extracted emails. -/
theorem create_email_mappings_manual (emails : List String)
    (custom : List (String × String)) :
    create_email_mappings emails custom "manual" =
      (pySortedStr emails).filterMap
        (fun n => (dictLookup custom n).map (fun v => (n, v))) := by
  unfold create_email_mappings
  rw [List.foldl_ext _ (manualStep custom) (([], 1) : List (String × String) × Nat)
      (fun acc x _ => by rcases acc with ⟨out, k⟩; simp [manualStep])]
  exact manualStep_foldl custom (pySortedStr emails) [] 1

theorem dictLookup_isSome_of_mem {m : List (String × String)} {k v : String}
    (h : (k, v) ∈ m) : ∃ w, dictLookup m k = some w := by
  unfold dictLookup
  have : (m.find? (fun p => p.1 == k)).isSome := by
    rw [List.find?_isSome]
    exact ⟨(k, v), h, by simp⟩
  cases hf : m.find? (fun p => p.1 == k) with
  | none => rw [hf] at this; cases this
  | some q => exact ⟨q.2, rfl⟩

/-- Entries of the manual name table come from the custom mapping and
from extracted names. -/
theorem manual_name_entry {names : List String} {custom : List (String × String)}
    {p : String × String} (hp : p ∈ create_name_mappings names custom "manual") :
    dictLookup custom p.1 = some p.2 ∧ p.1 ∈ names := by
  rw [create_name_mappings_manual, List.mem_filterMap] at hp
  obtain ⟨a, ha, hfa⟩ := hp
  cases h : dictLookup custom a with
  | none => rw [h] at hfa; cases hfa
  | some v =>
    rw [h] at hfa
    simp only [Option.map_some', Option.some.injEq] at hfa
    rw [← hfa]
    exact ⟨h, mem_pySortedByLower.mp ha⟩

theorem manual_email_entry {emails : List String} {custom : List (String × String)}
    {p : String × String} (hp : p ∈ create_email_mappings emails custom "manual") :
    dictLookup custom p.1 = some p.2 ∧ p.1 ∈ emails := by
  rw [create_email_mappings_manual, List.mem_filterMap] at hp
  obtain ⟨a, ha, hfa⟩ := hp
  cases h : dictLookup custom a with
  | none => rw [h] at hfa; cases hfa
  | some v =>
    rw [h] at hfa
    simp only [Option.map_some', Option.some.injEq] at hfa
    rw [← hfa]
    exact ⟨h, mem_pySortedStr.mp ha⟩

theorem manual_name_entry_of {names : List String}
    {custom : List (String × String)} {k v : String}
    (hk : k ∈ names) (hkv : dictLookup custom k = some v) :
    (k, v) ∈ create_name_mappings names custom "manual" := by
  rw [create_name_mappings_manual, List.mem_filterMap]
  exact ⟨k, mem_pySortedByLower.mpr hk, by rw [hkv]; rfl⟩

theorem manual_email_entry_of {emails : List String}
    {custom : List (String × String)} {k v : String}
    (hk : k ∈ emails) (hkv : dictLookup custom k = some v) :
    (k, v) ∈ create_email_mappings emails custom "manual" := by
  rw [create_email_mappings_manual, List.mem_filterMap]
  exact ⟨k, mem_pySortedStr.mpr hk, by rw [hkv]; rfl⟩

/-- C3 (amended): in manual mode, the Mapping Builder returns the
restriction of the caller-supplied custom mapping to the entities
extracted from the document: every output pair is a supplied pair whose
original is an extracted creator name or extracted email; conversely,
every extracted entity that is a custom-mapping key appears with its
supplied replacement; supplied pairs whose original does not occur in the
document are dropped, and no other pairs are added. -/
theorem c3_manual_mode_restricts_custom_mapping (data : ChatDocument)
    (custom : List (String × String)) :
    ∃ M, create_anonymization_mappings data (some custom) "manual" = .ok M ∧
      (∀ p ∈ M, dictLookup custom p.1 = some p.2) ∧
      (∀ p ∈ M, p.1 ∈ (extract_entities_from_messages data).1 ∨
        p.1 ∈ (extract_entities_from_messages data).2) ∧
      (∀ k v, (k ∈ (extract_entities_from_messages data).1 ∨
          k ∈ (extract_entities_from_messages data).2) →
        dictLookup custom k = some v → (k, v) ∈ M) := by
  refine ⟨dictUpdate
      (create_name_mappings (extract_entities_from_messages data).1 custom "manual")
      (create_email_mappings (extract_entities_from_messages data).2 custom "manual"),
    rfl, ?_, ?_, ?_⟩
  · -- every output value is the supplied one
    intro p hp
    unfold dictUpdate at hp
    rw [List.mem_append] at hp
    rcases hp with hp | hp
    · rw [List.mem_map] at hp
      obtain ⟨q, hq, hfq⟩ := hp
      cases h : dictLookup (create_email_mappings
          (extract_entities_from_messages data).2 custom "manual") q.1 with
      | none =>
        rw [h] at hfq
        simp only [Option.getD_none] at hfq
        rw [← hfq]
        exact (manual_name_entry hq).1
      | some w =>
        rw [h] at hfq
        simp only [Option.getD_some] at hfq
        rw [← hfq]
        exact (manual_email_entry (dictLookup_eq_some_mem h)).1
    · rw [List.mem_filter] at hp
      exact (manual_email_entry hp.1).1
  · -- every output key is an extracted entity
    intro p hp
    unfold dictUpdate at hp
    rw [List.mem_append] at hp
    rcases hp with hp | hp
    · rw [List.mem_map] at hp
      obtain ⟨q, hq, hfq⟩ := hp
      left
      rw [← hfq]
      exact (manual_name_entry hq).2
    · rw [List.mem_filter] at hp
      right
      exact (manual_email_entry hp.1).2
  · -- every extracted entity with a supplied mapping appears
    intro k v hk hkv
    unfold dictUpdate
    rw [List.mem_append]
    rcases hk with hk | hk
    · left
      rw [List.mem_map]
      have hmem := manual_name_entry_of hk hkv
      cases h : dictLookup (create_email_mappings
          (extract_entities_from_messages data).2 custom "manual") k with
      | none => exact ⟨(k, v), hmem, by rw [h]; rfl⟩
      | some w =>
        have hw := (manual_email_entry (dictLookup_eq_some_mem h)).1
        rw [hkv] at hw
        injection hw with hw2
        subst hw2
        exact ⟨(k, v), hmem, by rw [h]; rfl⟩
    · have hmem := manual_email_entry_of hk hkv
      cases h : dictLookup (create_name_mappings
          (extract_entities_from_messages data).1 custom "manual") k with
      | none =>
        right
        rw [List.mem_filter]
        exact ⟨hmem, by simp [h]⟩
      | some w =>
        left
        rw [List.mem_map]
        have hmemn := dictLookup_eq_some_mem h
        obtain ⟨w', hw'⟩ := dictLookup_isSome_of_mem hmem
        have hv := (manual_email_entry (dictLookup_eq_some_mem hw')).1
        rw [hkv] at hv
        injection hv with hv2
        subst hv2
        exact ⟨(k, w), hmemn, by rw [hw']; rfl⟩

theorem c3_manual_mode_restricts_custom_mapping_witness :
    (∃ M, create_anonymization_mappings
        ⟨[⟨some ⟨some "Alice", none⟩, none, none, none, none, none⟩]⟩
        (some [("Alice", "X"), ("Bob", "Y")]) "manual" = .ok M ∧
      (∀ p ∈ M, dictLookup [("Alice", "X"), ("Bob", "Y")] p.1 = some p.2) ∧
      (∀ p ∈ M, p.1 ∈ (extract_entities_from_messages
          ⟨[⟨some ⟨some "Alice", none⟩, none, none, none, none, none⟩]⟩).1 ∨
        p.1 ∈ (extract_entities_from_messages
          ⟨[⟨some ⟨some "Alice", none⟩, none, none, none, none, none⟩]⟩).2) ∧
      (∀ k v, (k ∈ (extract_entities_from_messages
            ⟨[⟨some ⟨some "Alice", none⟩, none, none, none, none, none⟩]⟩).1 ∨
          k ∈ (extract_entities_from_messages
            ⟨[⟨some ⟨some "Alice", none⟩, none, none, none, none, none⟩]⟩).2) →
        dictLookup [("Alice", "X"), ("Bob", "Y")] k = some v → (k, v) ∈ M)) ∧
    create_anonymization_mappings
        ⟨[⟨some ⟨some "Alice", none⟩, none, none, none, none, none⟩]⟩
        (some [("Alice", "X"), ("Bob", "Y")]) "manual" = .ok [("Alice", "X")] :=
  ⟨c3_manual_mode_restricts_custom_mapping
      ⟨[⟨some ⟨some "Alice", none⟩, none, none, none, none, none⟩]⟩
      [("Alice", "X"), ("Bob", "Y")], rfl⟩

theorem ciIsPrefixOf_append_self (p s : List Char) :
    ciIsPrefixOf p (p ++ s) = true := by
  induction p with
  | nil => rfl
  | cons c cs ih => simp [ciIsPrefixOf, charEqCI, ih]

theorem npfx_of_all {p : Char → Bool} {s : List Char}
    (h : ∀ c ∈ s, p c = true) : npfx p s = s.length := by
  induction s with
  | nil => rfl
  | cons c cs ih =>
    simp only [npfx, h c (List.mem_cons_self c cs), if_true]
    rw [ih (fun x hx => h x (List.mem_cons_of_mem c hx))]
    rfl

theorem starStates_head (prev : Option Char) (s : List Char) (n : Nat) :
    (starStates prev s n).head? = some (prevAfter prev s n, s.drop n) := by
  cases n <;> rfl

theorem subAux_nil (ats : List RAtom) (repl : List Char) (f : Nat)
    (pv : Option Char) : subAux ats repl f pv [] = [] := by
  cases f <;> rfl

/-- The `google_docs` pattern consumes the whole input
`https://docs.google.com/document/d/<id>` when `<id>` is a non-empty run
of id-characters: the literal matches, the greedy `+` swallows all of
`<id>`, and the trailing `[^\s]*` matches the empty remainder. -/
theorem matchHere_google_docs (id : List Char) (h1 : id ≠ [])
    (h2 : ∀ c ∈ id, clsId c = true) (prev : Option Char) :
    matchHere [L "https://docs.google.com/document/d/", .plus clsId, .star clsNS]
      prev ("https://docs.google.com/document/d/".data ++ id) = some [] := by
  obtain ⟨c, rest, rfl⟩ : ∃ c rest, id = c :: rest := by
    cases id with
    | nil => exact absurd rfl h1
    | cons c rest => exact ⟨c, rest, rfl⟩
  have hc : clsId c = true := h2 c (List.mem_cons_self c rest)
  have hrest : ∀ x ∈ rest, clsId x = true :=
    fun x hx => h2 x (List.mem_cons_of_mem c hx)
  unfold matchHere
  rw [matchAtoms]
  unfold atomStates
  simp only [L]
  rw [if_pos (ciIsPrefixOf_append_self _ _)]
  simp only [List.flatMap_cons, List.flatMap_nil, List.append_nil,
    List.drop_left, List.isEmpty_eq_true]
  rw [matchAtoms]
  unfold atomStates
  dsimp only
  rw [if_pos hc, npfx_of_all hrest]
  have hhead := starStates_head (some c) rest rest.length
  cases hss : starStates (some c) rest rest.length with
  | nil => rw [hss] at hhead; cases hhead
  | cons st sts =>
    rw [hss] at hhead
    simp only [List.head?_cons, Option.some.injEq] at hhead
    subst hhead
    rw [List.flatMap_cons, List.drop_length]
    rfl

theorem matchAtoms_ne_nil_of_matchHere {ats : List RAtom} {prev : Option Char}
    {s r : List Char} (h : matchHere ats prev s = some r) :
    (matchAtoms ats prev s).isEmpty = false := by
  unfold matchHere at h
  cases hm : matchAtoms ats prev s with
  | nil => rw [hm] at h; cases h
  | cons a l => rfl

theorem searchAux_true_of_here {ats : List RAtom} {prev : Option Char}
    {s : List Char} (h : (matchAtoms ats prev s).isEmpty = false) :
    searchAux ats prev s = true := by
  cases s with
  | nil => simp [searchAux, h]
  | cons c rest => simp [searchAux, h]

/-- When the pattern matches at position 0 consuming the entire input,
`re.sub` returns exactly the replacement. -/
theorem subRE_replaces_whole {ats : List RAtom} {repl s : List Char}
    (hne : s ≠ []) (h : matchHere ats none s = some []) :
    subRE ats repl s = repl := by
  obtain ⟨c, rest, rfl⟩ : ∃ c rest, s = c :: rest := by
    cases s with
    | nil => exact absurd rfl hne
    | cons c rest => exact ⟨c, rest, rfl⟩
  unfold subRE
  rw [List.length_cons]
  rw [subAux, h]
  simp [subAux_nil]

/-- C7: for every non-empty document id made of id-characters
(`[a-zA-Z0-9-_]`), the domain-level link pass turns the Google Docs URL
`https://docs.google.com/document/d/<id>` into exactly `[DOCS_LINK]` —
never `[HTTPS_LINK]` — because the `google_docs` pattern is applied
before the generic catch-alls and its replacement is not matched by any
later pattern. -/
theorem c7_google_docs_url_becomes_docs_tag (id : List Char) (h1 : id ≠ [])
    (h2 : ∀ c ∈ id, clsId c = true) :
    anonymize_all_links
      (String.mk ("https://docs.google.com/document/d/".data ++ id)) "domain" =
      "[DOCS_LINK]" := by
  have hne : "https://docs.google.com/document/d/".data ++ id ≠ [] := by
    intro hx
    cases hx
  have hbeq : (String.mk ("https://docs.google.com/document/d/".data ++ id) == "") = false := by
    rw [beq_eq_false_iff_ne]
    intro hx
    exact hne (congrArg String.data hx)
  unfold anonymize_all_links
  rw [hbeq]
  simp only [Bool.false_eq_true, if_false]
  rw [show (("domain" : String) == "full") = false from rfl]
  simp only [Bool.false_eq_true, if_false]
  show String.mk (List.foldl applyLinkPattern
    ("https://docs.google.com/document/d/".data ++ id) linkPatterns) = "[DOCS_LINK]"
  rw [show linkPatterns =
    ([L "https://docs.google.com/document/d/", .plus clsId, .star clsNS],
      "[DOCS_LINK]") :: linkPatterns.drop 1 from rfl]
  rw [List.foldl_cons]
  have hm := matchHere_google_docs id h1 h2 none
  rw [show applyLinkPattern ("https://docs.google.com/document/d/".data ++ id)
      (([L "https://docs.google.com/document/d/", .plus clsId, .star clsNS],
        "[DOCS_LINK]")) = "[DOCS_LINK]".data from by
    unfold applyLinkPattern searchRE
    dsimp only
    rw [if_pos (searchAux_true_of_here (matchAtoms_ne_nil_of_matchHere hm))]
    exact subRE_replaces_whole hne hm]
  decide

theorem c7_google_docs_url_becomes_docs_tag_witness :
    anonymize_all_links
      (String.mk ("https://docs.google.com/document/d/".data ++ "abc123".data))
      "domain" = "[DOCS_LINK]" :=
  c7_google_docs_url_becomes_docs_tag "abc123".data (by decide) (by decide)

/-! ### Idempotence of the domain-level link pass: matcher metatheory -/

theorem toLower_of_pySpace {b : Char} (h : isPySpace b = true) :
    b.toLower = b := by
  simp only [isPySpace, Bool.or_eq_true, beq_iff_eq, Bool.and_eq_true,
    decide_eq_true_eq] at h
  unfold Char.toLower
  rw [if_neg]
  intro hc
  omega

theorem charEqCI_pySpace {c b : Char} (hc : isPySpace c.toLower = false)
    (hb : isPySpace b = true) : charEqCI c b = false := by
  unfold charEqCI
  rw [toLower_of_pySpace hb, beq_eq_false_iff_ne]
  intro he
  rw [he] at hc
  rw [hc] at hb
  cases hb

theorem clsId_pySpace {b : Char} (h : isPySpace b = true) : clsId b = false := by
  simp only [isPySpace, Bool.or_eq_true, beq_iff_eq, Bool.and_eq_true,
    decide_eq_true_eq] at h
  rw [Bool.eq_false_iff]
  intro hc
  simp only [clsId, Bool.or_eq_true, beq_iff_eq, Bool.and_eq_true,
    decide_eq_true_eq] at hc
  omega

theorem clsDom_pySpace {b : Char} (h : isPySpace b = true) : clsDom b = false := by
  simp only [isPySpace, Bool.or_eq_true, beq_iff_eq, Bool.and_eq_true,
    decide_eq_true_eq] at h
  rw [Bool.eq_false_iff]
  intro hc
  simp only [clsDom, Bool.or_eq_true, beq_iff_eq, Bool.and_eq_true,
    decide_eq_true_eq] at hc
  omega

theorem clsAlpha_pySpace {b : Char} (h : isPySpace b = true) :
    clsAlpha b = false := by
  simp only [isPySpace, Bool.or_eq_true, beq_iff_eq, Bool.and_eq_true,
    decide_eq_true_eq] at h
  rw [Bool.eq_false_iff]
  intro hc
  simp only [clsAlpha, Bool.or_eq_true, beq_iff_eq, Bool.and_eq_true,
    decide_eq_true_eq] at hc
  omega

theorem clsDigit_pySpace {b : Char} (h : isPySpace b = true) :
    clsDigit b = false := by
  simp only [isPySpace, Bool.or_eq_true, beq_iff_eq, Bool.and_eq_true,
    decide_eq_true_eq] at h
  rw [Bool.eq_false_iff]
  intro hc
  simp only [clsDigit, Bool.and_eq_true, decide_eq_true_eq] at hc
  omega

theorem clsNS_pySpace {b : Char} (h : isPySpace b = true) : clsNS b = false := by
  simp [clsNS, h]

theorem matchAtoms_nil_eq (prev : Option Char) (s : List Char) :
    matchAtoms [] prev s = [(prev, s)] := rfl

theorem matchAtoms_append (l₁ l₂ : List RAtom) (prev : Option Char)
    (s : List Char) :
    matchAtoms (l₁ ++ l₂) prev s =
      (matchAtoms l₁ prev s).flatMap (fun st => matchAtoms l₂ st.1 st.2) := by
  induction l₁ generalizing prev s with
  | nil => simp [matchAtoms_nil_eq]
  | cons a l ih =>
    show (atomStates a prev s).flatMap _ = ((atomStates a prev s).flatMap _).flatMap _
    rw [List.flatMap_assoc]
    exact List.flatMap_congr (fun st _ => ih st.1 st.2)

theorem starStates_ne_nil (prev : Option Char) (s : List Char) (n : Nat) :
    starStates prev s n ≠ [] := by
  cases n <;> simp [starStates]

theorem matchAtoms_single_star (p : Char → Bool) (prev : Option Char)
    (s : List Char) :
    matchAtoms [.star p] prev s = starStates prev s (npfx p s) := by
  show (atomStates (.star p) prev s).flatMap _ = _
  unfold atomStates
  rw [show (fun (st : Option Char × List Char) => matchAtoms [] st.1 st.2) =
    (fun st => [st]) from funext (fun st => rfl)]
  exact List.flatMap_singleton' _

theorem matchAtoms_trailing_star_eq_nil {mand : List RAtom} {p : Char → Bool}
    {prev : Option Char} {s : List Char} :
    matchAtoms (mand ++ [.star p]) prev s = [] ↔ matchAtoms mand prev s = [] := by
  rw [matchAtoms_append]
  constructor
  · intro h
    by_contra hne
    cases hm : matchAtoms mand prev s with
    | nil => exact hne hm
    | cons st sts =>
      rw [hm, List.flatMap_cons, matchAtoms_single_star] at h
      exact starStates_ne_nil st.1 st.2 _ (List.append_eq_nil.mp h).1
  · intro h
    rw [h]
    rfl

theorem mem_starStates {st : Option Char × List Char} {prev : Option Char}
    {s : List Char} {n : Nat} (h : st ∈ starStates prev s n) :
    ∃ i, i ≤ n ∧ st = (prevAfter prev s i, s.drop i) := by
  induction n with
  | zero =>
    simp only [starStates, List.mem_singleton] at h
    exact ⟨0, Nat.le_refl 0, by simpa [prevAfter] using h⟩
  | succ n ih =>
    simp only [starStates, List.mem_cons] at h
    rcases h with h | h
    · exact ⟨n + 1, Nat.le_refl _, h⟩
    · obtain ⟨i, hi, he⟩ := ih h
      exact ⟨i, Nat.le_succ_of_le hi, he⟩

mutual

theorem matchAtoms_suffix (ats : List RAtom) (prev : Option Char)
    (s : List Char) : ∀ st ∈ matchAtoms ats prev s, st.2 <:+ s := by
  cases ats with
  | nil =>
    intro st hst
    rw [matchAtoms_nil_eq, List.mem_singleton] at hst
    rw [hst]
  | cons a l =>
    intro st hst
    rw [show matchAtoms (a :: l) prev s =
      (atomStates a prev s).flatMap (fun st => matchAtoms l st.1 st.2) from rfl,
      List.mem_flatMap] at hst
    obtain ⟨st', hst', hmem⟩ := hst
    exact (matchAtoms_suffix l st'.1 st'.2 st hmem).trans
      (atomStates_suffix a prev s st' hst')

theorem atomStates_suffix (a : RAtom) (prev : Option Char) (s : List Char) :
    ∀ st ∈ atomStates a prev s, st.2 <:+ s := by
  cases a with
  | lit cs =>
    intro st hst
    unfold atomStates at hst
    split at hst
    · rw [List.mem_singleton] at hst
      rw [hst]
      exact List.drop_suffix _ _
    · cases hst
  | cls p =>
    intro st hst
    unfold atomStates at hst
    cases s with
    | nil => dsimp only at hst; cases hst
    | cons c s' =>
      dsimp only at hst
      split at hst
      · rw [List.mem_singleton] at hst
        rw [hst]
        exact List.suffix_cons c s'
      · cases hst
  | star p =>
    intro st hst
    unfold atomStates at hst
    obtain ⟨i, _, he⟩ := mem_starStates hst
    rw [he]
    exact List.drop_suffix _ _
  | plus p =>
    intro st hst
    unfold atomStates at hst
    cases s with
    | nil => dsimp only at hst; cases hst
    | cons c s' =>
      dsimp only at hst
      split at hst
      · obtain ⟨i, _, he⟩ := mem_starStates hst
        rw [he]
        exact (List.drop_suffix i s').trans (List.suffix_cons c s')
      · cases hst
  | opt g =>
    intro st hst
    unfold atomStates at hst
    rw [List.mem_append] at hst
    rcases hst with hst | hst
    · exact matchAtoms_suffix g prev s st hst
    · rw [List.mem_singleton] at hst
      rw [hst]
  | alt g1 g2 =>
    intro st hst
    unfold atomStates at hst
    rw [List.mem_append] at hst
    rcases hst with hst | hst
    · exact matchAtoms_suffix g1 prev s st hst
    · exact matchAtoms_suffix g2 prev s st hst
  | wb =>
    intro st hst
    unfold atomStates at hst
    split at hst
    · rw [List.mem_singleton] at hst
      rw [hst]
    · cases hst

end

theorem ciIsPrefixOf_length_le {cs d : List Char}
    (h : ciIsPrefixOf cs d = true) : cs.length ≤ d.length := by
  induction cs generalizing d with
  | nil => simp
  | cons c cs ih =>
    cases d with
    | nil => cases h
    | cons e d' =>
      simp only [ciIsPrefixOf, Bool.and_eq_true] at h
      simpa using ih h.2

theorem ciIsPrefixOf_append_blocked {cs : List Char} {b : Char}
    (hb : ∀ c ∈ cs, charEqCI c b = false) (d X : List Char) :
    ciIsPrefixOf cs (d ++ b :: X) = ciIsPrefixOf cs d := by
  induction cs generalizing d with
  | nil => rfl
  | cons c cs ih =>
    cases d with
    | nil =>
      simp only [List.nil_append, ciIsPrefixOf]
      rw [hb c (List.mem_cons_self c cs)]
      rfl
    | cons e d' =>
      simp only [List.cons_append, ciIsPrefixOf, List.append_eq]
      rw [ih (fun x hx => hb x (List.mem_cons_of_mem c hx))]

theorem npfx_le_length (p : Char → Bool) (s : List Char) : npfx p s ≤ s.length := by
  induction s with
  | nil => exact Nat.le_refl 0
  | cons c rest ih =>
    unfold npfx
    split
    · simpa using ih
    · exact Nat.zero_le _

theorem npfx_append_blocked {p : Char → Bool} {b : Char} (hb : p b = false)
    (d X : List Char) : npfx p (d ++ b :: X) = npfx p d := by
  induction d with
  | nil => simp [npfx, hb]
  | cons c d' ih =>
    simp only [List.cons_append, npfx, List.append_eq]
    rw [ih]

theorem take_append_of_le {d z : List Char} {i : Nat} (h : i ≤ d.length) :
    (d ++ z).take i = d.take i := by
  rw [List.take_append_of_le_length h]

theorem drop_append_of_le {d z : List Char} {i : Nat} (h : i ≤ d.length) :
    (d ++ z).drop i = d.drop i ++ z := by
  rw [List.drop_append_of_le_length h]

theorem prevAfter_append_of_le {prev : Option Char} {d z : List Char} {i : Nat}
    (h : i ≤ d.length) : prevAfter prev (d ++ z) i = prevAfter prev d i := by
  unfold prevAfter
  cases hi : (i == 0) with
  | true => rfl
  | false => rw [take_append_of_le h]

theorem starStates_append_of_le {prev : Option Char} {d z : List Char} {n : Nat}
    (h : n ≤ d.length) :
    starStates prev (d ++ z) n =
      (starStates prev d n).map (fun st => (st.1, st.2 ++ z)) := by
  induction n with
  | zero => rfl
  | succ n ih =>
    unfold starStates
    rw [List.map_cons, prevAfter_append_of_le h, drop_append_of_le h,
      ih (Nat.le_of_succ_le h)]

mutual

theorem matchAtoms_append_blocked (b : Char) (X : List Char) (ats : List RAtom)
    (hr : rejList b ats = true) : ∀ (prev : Option Char) (d : List Char),
    matchAtoms ats prev (d ++ b :: X) =
      (matchAtoms ats prev d).map (fun st => (st.1, st.2 ++ b :: X)) := by
  cases ats with
  | nil => intro prev d; rfl
  | cons a l =>
    intro prev d
    rw [rejList, Bool.and_eq_true] at hr
    show (atomStates a prev (d ++ b :: X)).flatMap _ =
      ((atomStates a prev d).flatMap _).map _
    rw [atomStates_append_blocked b X a hr.1 prev d, List.flatMap_map,
      List.map_flatMap]
    exact List.flatMap_congr (fun st _ =>
      matchAtoms_append_blocked b X l hr.2 st.1 st.2)

theorem atomStates_append_blocked (b : Char) (X : List Char) (a : RAtom)
    (hr : rejAtom b a = true) : ∀ (prev : Option Char) (d : List Char),
    atomStates a prev (d ++ b :: X) =
      (atomStates a prev d).map (fun st => (st.1, st.2 ++ b :: X)) := by
  cases a with
  | lit cs =>
    intro prev d
    rw [rejAtom, List.all_eq_true] at hr
    have hb : ∀ c ∈ cs, charEqCI c b = false := by
      intro c hc
      have := hr c hc
      simpa using this
    unfold atomStates
    rw [ciIsPrefixOf_append_blocked hb]
    split
    · rename_i hpre
      have hlen : cs.length ≤ d.length := ciIsPrefixOf_length_le hpre
      rw [List.map_singleton, take_append_of_le hlen, drop_append_of_le hlen]
    · rfl
  | cls p =>
    intro prev d
    rw [rejAtom] at hr
    have hp : p b = false := by simpa using hr
    cases d with
    | nil =>
      show (if p b = true then _ else _) = _
      rw [hp]
      rfl
    | cons c d' =>
      show (if p c = true then _ else _) = _
      dsimp only [atomStates]
      split <;> rfl
  | star p =>
    intro prev d
    rw [rejAtom] at hr
    have hp : p b = false := by simpa using hr
    unfold atomStates
    rw [npfx_append_blocked hp, starStates_append_of_le (npfx_le_length p d)]
  | plus p =>
    intro prev d
    rw [rejAtom] at hr
    have hp : p b = false := by simpa using hr
    cases d with
    | nil =>
      show (if p b = true then _ else _) = _
      rw [hp]
      rfl
    | cons c d' =>
      unfold atomStates
      simp only [List.cons_append, List.append_eq]
      split
      · rw [npfx_append_blocked hp, starStates_append_of_le (npfx_le_length p d')]
      · rfl
  | opt g =>
    intro prev d
    rw [rejAtom] at hr
    unfold atomStates
    rw [List.map_append, matchAtoms_append_blocked b X g hr prev d,
      List.map_singleton]
  | alt g1 g2 =>
    intro prev d
    rw [rejAtom, Bool.and_eq_true] at hr
    unfold atomStates
    rw [List.map_append, matchAtoms_append_blocked b X g1 hr.1 prev d,
      matchAtoms_append_blocked b X g2 hr.2 prev d]
  | wb =>
    intro prev d
    rw [rejAtom] at hr
    cases hr

end

theorem ciIsPrefixOf_extend {cs d : List Char} (X : List Char)
    (h : ciIsPrefixOf cs d = true) : ciIsPrefixOf cs (d ++ X) = true := by
  induction cs generalizing d with
  | nil => rfl
  | cons c cs ih =>
    cases d with
    | nil => cases h
    | cons e d' =>
      simp only [List.cons_append, ciIsPrefixOf, Bool.and_eq_true] at h ⊢
      exact ⟨h.1, ih h.2⟩

theorem npfx_append_ge (p : Char → Bool) (d X : List Char) :
    npfx p d ≤ npfx p (d ++ X) := by
  induction d with
  | nil => exact Nat.zero_le _
  | cons c d' ih =>
    simp only [List.cons_append, npfx]
    split
    · simpa using ih
    · exact Nat.le_refl 0

theorem starStates_mem {prev : Option Char} {s : List Char} {n i : Nat}
    (h : i ≤ n) : (prevAfter prev s i, s.drop i) ∈ starStates prev s n := by
  induction n with
  | zero =>
    have : i = 0 := Nat.le_zero.mp h
    subst this
    simp [starStates, prevAfter]
  | succ n ih =>
    rcases Nat.lt_or_ge i (n + 1) with hi | hi
    · exact List.mem_cons_of_mem _ (ih (Nat.lt_succ_iff.mp hi))
    · have : i = n + 1 := Nat.le_antisymm h hi
      subst this
      exact List.mem_cons_self _ _

mutual

theorem matchAtoms_extend (b : Char) (X : List Char) (ats : List RAtom)
    (hr : rejList b ats = true) : ∀ (prev : Option Char) (d : List Char),
    ∀ st ∈ matchAtoms ats prev d,
      (st.1, st.2 ++ X) ∈ matchAtoms ats prev (d ++ X) := by
  cases ats with
  | nil =>
    intro prev d st hst
    rw [matchAtoms_nil_eq, List.mem_singleton] at hst
    rw [hst]
    rw [matchAtoms_nil_eq]
    exact List.mem_singleton.mpr rfl
  | cons a l =>
    intro prev d st hst
    rw [rejList, Bool.and_eq_true] at hr
    rw [show matchAtoms (a :: l) prev d =
      (atomStates a prev d).flatMap (fun st => matchAtoms l st.1 st.2) from rfl,
      List.mem_flatMap] at hst
    obtain ⟨st', hst', hmem⟩ := hst
    rw [show matchAtoms (a :: l) prev (d ++ X) =
      (atomStates a prev (d ++ X)).flatMap (fun st => matchAtoms l st.1 st.2) from rfl,
      List.mem_flatMap]
    exact ⟨(st'.1, st'.2 ++ X), atomStates_extend b X a hr.1 prev d st' hst',
      matchAtoms_extend b X l hr.2 st'.1 st'.2 st hmem⟩

theorem atomStates_extend (b : Char) (X : List Char) (a : RAtom)
    (hr : rejAtom b a = true) : ∀ (prev : Option Char) (d : List Char),
    ∀ st ∈ atomStates a prev d,
      (st.1, st.2 ++ X) ∈ atomStates a prev (d ++ X) := by
  cases a with
  | lit cs =>
    intro prev d st hst
    unfold atomStates at hst ⊢
    split at hst
    · rename_i hpre
      have hlen : cs.length ≤ d.length := ciIsPrefixOf_length_le hpre
      rw [List.mem_singleton] at hst
      rw [if_pos (ciIsPrefixOf_extend X hpre), List.mem_singleton, hst,
        take_append_of_le hlen, drop_append_of_le hlen]
    · cases hst
  | cls p =>
    intro prev d st hst
    unfold atomStates at hst ⊢
    cases d with
    | nil => dsimp only at hst; cases hst
    | cons c d' =>
      simp only [List.cons_append] at hst ⊢
      split at hst
      · rename_i hc
        rw [List.mem_singleton] at hst
        rw [if_pos hc, List.mem_singleton, hst]
      · cases hst
  | star p =>
    intro prev d st hst
    unfold atomStates at hst ⊢
    obtain ⟨i, hi, he⟩ := mem_starStates hst
    have hile : i ≤ d.length := Nat.le_trans hi (npfx_le_length p d)
    rw [he, prevAfter_append_of_le hile |>.symm, drop_append_of_le hile |>.symm]
    exact starStates_mem (Nat.le_trans hi (npfx_append_ge p d X))
  | plus p =>
    intro prev d st hst
    unfold atomStates at hst ⊢
    cases d with
    | nil => dsimp only at hst; cases hst
    | cons c d' =>
      simp only [List.cons_append] at hst ⊢
      split at hst
      · rename_i hc
        rw [if_pos hc]
        obtain ⟨i, hi, he⟩ := mem_starStates hst
        have hile : i ≤ d'.length := Nat.le_trans hi (npfx_le_length p d')
        rw [he, prevAfter_append_of_le hile |>.symm, drop_append_of_le hile |>.symm]
        exact starStates_mem (Nat.le_trans hi (npfx_append_ge p d' X))
      · cases hst
  | opt g =>
    intro prev d st hst
    rw [rejAtom] at hr
    unfold atomStates at hst ⊢
    rw [List.mem_append] at hst
    rw [List.mem_append]
    rcases hst with hst | hst
    · exact Or.inl (matchAtoms_extend b X g hr prev d st hst)
    · rw [List.mem_singleton] at hst
      rw [hst]
      exact Or.inr (List.mem_singleton.mpr rfl)
  | alt g1 g2 =>
    intro prev d st hst
    rw [rejAtom, Bool.and_eq_true] at hr
    unfold atomStates at hst ⊢
    rw [List.mem_append] at hst
    rw [List.mem_append]
    rcases hst with hst | hst
    · exact Or.inl (matchAtoms_extend b X g1 hr.1 prev d st hst)
    · exact Or.inr (matchAtoms_extend b X g2 hr.2 prev d st hst)
  | wb =>
    intro prev d st hst
    rw [rejAtom] at hr
    cases hr

end

theorem flatMap_snd_congr {l₁ l₂ : List (Option Char × List Char)}
    {f₁ f₂ : Option Char × List Char → List (Option Char × List Char)}
    (h : l₁.map (·.2) = l₂.map (·.2))
    (hf : ∀ pv₁ pv₂ u, (f₁ (pv₁, u)).map (·.2) = (f₂ (pv₂, u)).map (·.2)) :
    (l₁.flatMap f₁).map (·.2) = (l₂.flatMap f₂).map (·.2) := by
  induction l₁ generalizing l₂ with
  | nil =>
    have : l₂ = [] := by simpa using h.symm
    rw [this]
    rfl
  | cons st l₁ ih =>
    cases l₂ with
    | nil => cases h
    | cons st₂ l₂' =>
      simp only [List.map_cons, List.cons.injEq] at h
      simp only [List.flatMap_cons, List.map_append]
      rw [ih h.2, show (f₁ st).map (·.2) = (f₂ st₂).map (·.2) from by
        have := hf st.1 st₂.1 st.2
        rw [show ((st.1, st.2) : Option Char × List Char) = st from rfl] at this
        rw [this, show ((st₂.1, st.2) : Option Char × List Char) = st₂ from by
          rw [h.1]]]

theorem starStates_snd_prev_indep (prev₁ prev₂ : Option Char) (s : List Char)
    (n : Nat) :
    (starStates prev₁ s n).map (·.2) = (starStates prev₂ s n).map (·.2) := by
  induction n with
  | zero => rfl
  | succ n ih => simp only [starStates, List.map_cons, ih]

mutual

theorem matchAtoms_snd_prev_indep (b : Char) (ats : List RAtom)
    (hr : rejList b ats = true) :
    ∀ (prev₁ prev₂ : Option Char) (s : List Char),
    (matchAtoms ats prev₁ s).map (·.2) = (matchAtoms ats prev₂ s).map (·.2) := by
  cases ats with
  | nil => intro prev₁ prev₂ s; rfl
  | cons a l =>
    intro prev₁ prev₂ s
    rw [rejList, Bool.and_eq_true] at hr
    show ((atomStates a prev₁ s).flatMap _).map _ =
      ((atomStates a prev₂ s).flatMap _).map _
    exact flatMap_snd_congr (atomStates_snd_prev_indep b a hr.1 prev₁ prev₂ s)
      (fun pv₁ pv₂ u => matchAtoms_snd_prev_indep b l hr.2 pv₁ pv₂ u)

theorem atomStates_snd_prev_indep (b : Char) (a : RAtom)
    (hr : rejAtom b a = true) :
    ∀ (prev₁ prev₂ : Option Char) (s : List Char),
    (atomStates a prev₁ s).map (·.2) = (atomStates a prev₂ s).map (·.2) := by
  cases a with
  | lit cs =>
    intro prev₁ prev₂ s
    unfold atomStates
    split <;> rfl
  | cls p => intro prev₁ prev₂ s; rfl
  | star p =>
    intro prev₁ prev₂ s
    unfold atomStates
    exact starStates_snd_prev_indep prev₁ prev₂ s _
  | plus p => intro prev₁ prev₂ s; rfl
  | opt g =>
    intro prev₁ prev₂ s
    rw [rejAtom] at hr
    unfold atomStates
    simp only [List.map_append]
    rw [matchAtoms_snd_prev_indep b g hr prev₁ prev₂ s]
    rfl
  | alt g1 g2 =>
    intro prev₁ prev₂ s
    rw [rejAtom, Bool.and_eq_true] at hr
    unfold atomStates
    simp only [List.map_append]
    rw [matchAtoms_snd_prev_indep b g1 hr.1 prev₁ prev₂ s,
      matchAtoms_snd_prev_indep b g2 hr.2 prev₁ prev₂ s]
  | wb =>
    intro prev₁ prev₂ s
    rw [rejAtom] at hr
    cases hr

end

theorem matchHere_prev_indep {b : Char} {ats : List RAtom}
    (hr : rejList b ats = true) (prev₁ prev₂ : Option Char) (s : List Char) :
    matchHere ats prev₁ s = matchHere ats prev₂ s := by
  unfold matchHere
  have h := matchAtoms_snd_prev_indep b ats hr prev₁ prev₂ s
  rw [← List.head?_map, ← List.head?_map, h]

theorem matchAtoms_isEmpty_prev_indep {b : Char} {ats : List RAtom}
    (hr : rejList b ats = true) (prev₁ prev₂ : Option Char) (s : List Char) :
    (matchAtoms ats prev₁ s).isEmpty = (matchAtoms ats prev₂ s).isEmpty := by
  have h := matchAtoms_snd_prev_indep b ats hr prev₁ prev₂ s
  cases h₁ : matchAtoms ats prev₁ s <;> cases h₂ : matchAtoms ats prev₂ s <;>
    rw [h₁, h₂] at h <;> first | rfl | cases h

theorem subAux_succ (ats : List RAtom) (repl : List Char) (f : Nat)
    (pc : Option Char) (c : Char) (rest : List Char) :
    subAux ats repl (f + 1) pc (c :: rest) =
      match matchHere ats pc (c :: rest) with
      | some s' =>
        if s'.length < rest.length + 1 then
          repl ++ subAux ats repl f
            ((c :: rest).take (rest.length + 1 - s'.length)).getLast? s'
        else c :: subAux ats repl f (some c) rest
      | none => c :: subAux ats repl f (some c) rest := rfl

theorem subAux_fuel (ats : List RAtom) (repl : List Char) :
    ∀ (f₁ f₂ : Nat) (pv : Option Char) (s : List Char),
    s.length ≤ f₁ → s.length ≤ f₂ →
    subAux ats repl f₁ pv s = subAux ats repl f₂ pv s := by
  intro f₁
  induction f₁ with
  | zero =>
    intro f₂ pv s h₁ h₂
    have : s = [] := List.length_eq_zero.mp (Nat.le_zero.mp h₁)
    subst this
    cases f₂ <;> rfl
  | succ f₁ ih =>
    intro f₂ pv s h₁ h₂
    cases s with
    | nil => cases f₂ <;> rfl
    | cons c rest =>
      cases f₂ with
      | zero => cases h₂
      | succ f₂ =>
        simp only [List.length_cons] at h₁ h₂
        rw [subAux_succ, subAux_succ]
        cases hm : matchHere ats pv (c :: rest) with
        | some s' =>
          dsimp only
          split
          · rename_i hlt
            rw [ih f₂ _ s' (by omega) (by omega)]
          · rw [ih f₂ _ rest (by omega) (by omega)]
        | none =>
          dsimp only
          rw [ih f₂ _ rest (by omega) (by omega)]

theorem subAux_prev_indep {b : Char} {ats : List RAtom}
    (hr : rejList b ats = true) (repl : List Char) (f : Nat)
    (pv₁ pv₂ : Option Char) (s : List Char) :
    subAux ats repl f pv₁ s = subAux ats repl f pv₂ s := by
  cases f with
  | zero => rfl
  | succ f =>
    cases s with
    | nil => rfl
    | cons c rest =>
      rw [subAux_succ, subAux_succ, matchHere_prev_indep hr pv₁ pv₂]

theorem searchAux_prev_indep {b : Char} {ats : List RAtom}
    (hr : rejList b ats = true) (pv₁ pv₂ : Option Char) (s : List Char) :
    searchAux ats pv₁ s = searchAux ats pv₂ s := by
  cases s with
  | nil =>
    show (!(matchAtoms ats pv₁ []).isEmpty) = !(matchAtoms ats pv₂ []).isEmpty
    rw [matchAtoms_isEmpty_prev_indep hr]
  | cons c rest =>
    show (!(matchAtoms ats pv₁ (c :: rest)).isEmpty || _) =
      (!(matchAtoms ats pv₂ (c :: rest)).isEmpty || _)
    rw [matchAtoms_isEmpty_prev_indep hr]

theorem searchAux_false_all {b : Char} {ats : List RAtom}
    (hr : rejList b ats = true) :
    ∀ (s : List Char) (prev : Option Char), searchAux ats prev s = false →
    ∀ (i : Nat) (pv : Option Char), matchAtoms ats pv (s.drop i) = [] := by
  intro s
  induction s with
  | nil =>
    intro prev h i pv
    rw [List.drop_nil]
    have h1 : (matchAtoms ats prev []).isEmpty = true := by
      simpa [searchAux] using h
    have h2 : (matchAtoms ats pv []).isEmpty = true := by
      rwa [matchAtoms_isEmpty_prev_indep hr pv prev]
    exact List.isEmpty_iff.mp h2
  | cons c rest ih =>
    intro prev h i pv
    have h2 : (!(matchAtoms ats prev (c :: rest)).isEmpty || searchAux ats (some c) rest) = false := h
    rw [Bool.or_eq_false_iff] at h2
    cases i with
    | zero =>
      rw [List.drop_zero]
      have : (matchAtoms ats prev (c :: rest)).isEmpty = true := by
        simpa using h2.1
      exact List.isEmpty_iff.mp (by rwa [matchAtoms_isEmpty_prev_indep hr pv prev])
    | succ i =>
      rw [List.drop_succ_cons]
      exact ih (some c) h2.2 i pv

theorem searchRE_true_of_suffix_match {b : Char} {ats : List RAtom}
    (hr : rejList b ats = true) {s : List Char} {k : Nat} {pv : Option Char}
    (h : matchAtoms ats pv (s.drop k) ≠ []) : searchRE ats s = true := by
  by_contra hs
  rw [Bool.not_eq_true] at hs
  exact h (searchAux_false_all hr s none hs k pv)

theorem searchRE_pos {b : Char} {ats : List RAtom} (hr : rejList b ats = true)
    {s : List Char} (h : searchRE ats s = true) :
    ∃ k, matchAtoms ats none (s.drop k) ≠ [] := by
  suffices hgen : ∀ (s : List Char) (prev : Option Char),
      searchAux ats prev s = true → ∃ k, matchAtoms ats none (s.drop k) ≠ [] by
    exact hgen s none h
  intro s
  induction s with
  | nil =>
    intro prev hsa
    refine ⟨0, ?_⟩
    rw [List.drop_zero]
    intro hnil
    have h1 : (matchAtoms ats prev []).isEmpty = false := by
      simpa [searchAux] using hsa
    rw [matchAtoms_isEmpty_prev_indep hr prev none, hnil] at h1
    cases h1
  | cons c rest ih =>
    intro prev hsa
    have h2 : (!(matchAtoms ats prev (c :: rest)).isEmpty ||
        searchAux ats (some c) rest) = true := hsa
    rw [Bool.or_eq_true] at h2
    rcases h2 with h2 | h2
    · refine ⟨0, ?_⟩
      rw [List.drop_zero]
      intro hnil
      have h1 : (matchAtoms ats prev (c :: rest)).isEmpty = false := by
        simpa using h2
      rw [matchAtoms_isEmpty_prev_indep hr prev none, hnil] at h1
      cases h1
    · obtain ⟨k, hk⟩ := ih (some c) h2
      exact ⟨k + 1, by rwa [List.drop_succ_cons]⟩

theorem rejList_append (b : Char) (l₁ l₂ : List RAtom) :
    rejList b (l₁ ++ l₂) = (rejList b l₁ && rejList b l₂) := by
  induction l₁ with
  | nil => rfl
  | cons a l ih =>
    show (rejAtom b a && rejList b (l ++ l₂)) = ((rejAtom b a && rejList b l) && _)
    rw [ih, Bool.and_assoc]

theorem npfx_all {p : Char → Bool} {s : List Char} (h : ∀ c ∈ s, p c = true) :
    npfx p s = s.length := by
  induction s with
  | nil => rfl
  | cons c rest ih =>
    rw [npfx, if_pos (h c (List.mem_cons_self c rest)), List.length_cons,
      ih (fun x hx => h x (List.mem_cons_of_mem c hx))]

theorem leadLit_consumes {ats : List RAtom} (hl : leadLit ats = true)
    (prev : Option Char) (s : List Char) :
    ∀ st ∈ matchAtoms ats prev s, st.2.length < s.length := by
  match ats, hl with
  | .lit (c :: cs) :: l, _ =>
    intro st hst
    rw [show matchAtoms (.lit (c :: cs) :: l) prev s =
      (atomStates (.lit (c :: cs)) prev s).flatMap
        (fun st => matchAtoms l st.1 st.2) from rfl, List.mem_flatMap] at hst
    obtain ⟨st', hst', hmem⟩ := hst
    unfold atomStates at hst'
    split at hst'
    · rename_i hpre
      rw [List.mem_singleton] at hst'
      subst hst'
      have hsuf := matchAtoms_suffix l _ _ st hmem
      have hlen : st.2.length ≤ (s.drop (c :: cs).length).length :=
        hsuf.length_le
      rw [List.length_drop] at hlen
      have hle := ciIsPrefixOf_length_le hpre
      simp only [List.length_cons] at hle hlen ⊢
      omega
    · cases hst'

theorem matchAtoms_nil_of_leadLit {ats : List RAtom} (hl : leadLit ats = true)
    (prev : Option Char) : matchAtoms ats prev [] = [] := by
  cases h : matchAtoms ats prev [] with
  | nil => rfl
  | cons st l =>
    have := leadLit_consumes hl prev [] st (h ▸ List.mem_cons_self st l)
    exact absurd this (by simp)

theorem starStates_full_head (prev : Option Char) (s : List Char)
    (X : List (Option Char × List Char)) :
    (starStates prev s s.length ++ X).head?.map (·.2) = some [] := by
  cases s with
  | nil => rfl
  | cons c t =>
    rw [List.length_cons, starStates, List.cons_append, List.head?_cons,
      Option.map_some']
    show some ((c :: t).drop (t.length + 1)) = some []
    rw [show (c :: t).drop (t.length + 1) = [] from by
      rw [← List.length_cons c t]
      exact List.drop_length _]

theorem matchHere_wsfree {mand : List RAtom} {prev : Option Char}
    {s r : List Char} (hws : ∀ c ∈ s, isPySpace c = false)
    (h : matchHere (mand ++ [.star clsNS]) prev s = some r) : r = [] := by
  unfold matchHere at h
  rw [matchAtoms_append] at h
  cases hm : matchAtoms mand prev s with
  | nil => rw [hm] at h; cases h
  | cons st rest =>
    rw [hm, List.flatMap_cons, matchAtoms_single_star] at h
    have hsuf : st.2 <:+ s := matchAtoms_suffix mand prev s st
      (hm ▸ List.mem_cons_self st rest)
    have hcl : ∀ c ∈ st.2, clsNS c = true := by
      intro c hc
      have hcs : c ∈ s := hsuf.subset hc
      unfold clsNS
      rw [hws c hcs]
      rfl
    rw [npfx_all hcl, starStates_full_head] at h
    exact (Option.some.inj h).symm

theorem ne_nil_of_isEmpty_false {α : Type} {l : List α}
    (h : l.isEmpty = false) : l ≠ [] := by
  intro hn
  rw [hn] at h
  cases h

theorem subAux_no_match {ats : List RAtom} {repl : List Char} :
    ∀ (s : List Char) (prev : Option Char) (fuel : Nat),
    searchAux ats prev s = false → subAux ats repl fuel prev s = s := by
  intro s
  induction s with
  | nil => intro prev fuel _; cases fuel <;> rfl
  | cons c rest ih =>
    intro prev fuel h
    have h2 : (!(matchAtoms ats prev (c :: rest)).isEmpty ||
        searchAux ats (some c) rest) = false := h
    rw [Bool.or_eq_false_iff] at h2
    have hm : matchAtoms ats prev (c :: rest) = [] :=
      List.isEmpty_iff.mp (by simpa using h2.1)
    have hmh : matchHere ats prev (c :: rest) = none := by
      unfold matchHere
      rw [hm]
      rfl
    cases fuel with
    | zero => rfl
    | succ f =>
      rw [subAux_succ, hmh]
      exact congrArg (c :: ·) (ih (some c) f h2.2)

theorem subAux_wsfree_match {mand : List RAtom} {repl : List Char}
    (hb : rejList ' ' (mand ++ [.star clsNS]) = true)
    (hl : leadLit (mand ++ [.star clsNS]) = true) :
    ∀ (s : List Char) (prev : Option Char),
    (∀ c ∈ s, isPySpace c = false) →
    searchAux (mand ++ [.star clsNS]) prev s = true →
    ∃ i, i < s.length ∧
      (∀ j < i, matchAtoms (mand ++ [.star clsNS]) none (s.drop j) = []) ∧
      matchAtoms (mand ++ [.star clsNS]) none (s.drop i) ≠ [] ∧
      subAux (mand ++ [.star clsNS]) repl s.length prev s = s.take i ++ repl := by
  intro s
  induction s with
  | nil =>
    intro prev _ h
    rw [show searchAux (mand ++ [.star clsNS]) prev [] =
      !(matchAtoms (mand ++ [.star clsNS]) prev []).isEmpty from rfl,
      matchAtoms_nil_of_leadLit hl] at h
    cases h
  | cons c rest ih =>
    intro prev hws h
    cases hmh : matchHere (mand ++ [.star clsNS]) prev (c :: rest) with
    | some r =>
      have hr : r = [] := matchHere_wsfree hws hmh
      subst hr
      refine ⟨0, by simp, fun j hj => absurd hj (by omega), ?_, ?_⟩
      · rw [List.drop_zero]
        apply ne_nil_of_isEmpty_false
        rw [matchAtoms_isEmpty_prev_indep hb none prev]
        exact matchAtoms_ne_nil_of_matchHere hmh
      · rw [List.length_cons, subAux_succ, hmh]
        show (if ([] : List Char).length < rest.length + 1 then _ else _) = _
        rw [if_pos (by simp), subAux_nil, List.append_nil, List.take_zero,
          List.nil_append]
    | none =>
      have hm : matchAtoms (mand ++ [.star clsNS]) prev (c :: rest) = [] := by
        unfold matchHere at hmh
        cases hx : matchAtoms (mand ++ [.star clsNS]) prev (c :: rest) with
        | nil => rfl
        | cons a l => rw [hx] at hmh; cases hmh
      have h2 : (!(matchAtoms (mand ++ [.star clsNS]) prev (c :: rest)).isEmpty ||
          searchAux (mand ++ [.star clsNS]) (some c) rest) = true := h
      rw [hm] at h2
      have h3 : searchAux (mand ++ [.star clsNS]) (some c) rest = true := by
        simpa using h2
      obtain ⟨i, hi, hjs, hne, hsub⟩ :=
        ih (some c) (fun x hx => hws x (List.mem_cons_of_mem c hx)) h3
      refine ⟨i + 1, by simpa using Nat.succ_lt_succ hi, ?_, ?_, ?_⟩
      · intro j hj
        cases j with
        | zero =>
          rw [List.drop_zero]
          apply List.isEmpty_iff.mp
          rw [matchAtoms_isEmpty_prev_indep hb none prev, hm]
          rfl
        | succ j' =>
          rw [List.drop_succ_cons]
          exact hjs j' (by omega)
      · rwa [List.drop_succ_cons]
      · rw [List.length_cons, subAux_succ, hmh]
        show c :: subAux (mand ++ [.star clsNS]) repl rest.length (some c) rest =
          (c :: rest).take (i + 1) ++ repl
        rw [hsub, List.take_succ_cons, List.cons_append]

theorem isEmpty_map {α β : Type} (f : α → β) (l : List α) :
    (l.map f).isEmpty = l.isEmpty := by
  cases l <;> rfl

theorem matchHere_append_blocked {b : Char} {ats : List RAtom}
    (hr : rejList b ats = true) (X : List Char) (prev : Option Char)
    (d : List Char) :
    matchHere ats prev (d ++ b :: X) =
      (matchHere ats prev d).map (· ++ b :: X) := by
  unfold matchHere
  rw [matchAtoms_append_blocked b X ats hr prev d, List.head?_map]
  cases (matchAtoms ats prev d).head? <;> rfl

theorem matchHere_some_mem {ats : List RAtom} {prev : Option Char}
    {s r : List Char} (h : matchHere ats prev s = some r) :
    ∃ pc, (pc, r) ∈ matchAtoms ats prev s := by
  unfold matchHere at h
  cases hm : matchAtoms ats prev s with
  | nil => rw [hm] at h; cases h
  | cons st l =>
    rw [hm] at h
    have h2 : st.2 = r := by
      have h3 : some st.2 = some r := h
      injection h3
    refine ⟨st.1, ?_⟩
    rw [← h2]
    exact List.mem_cons_self st l

theorem searchAux_split {b : Char} {ats : List RAtom}
    (hr : rejList b ats = true) (hl : leadLit ats = true) (rest : List Char) :
    ∀ (w : List Char) (prev : Option Char),
    searchAux ats prev (w ++ b :: rest) =
      (searchAux ats prev w || searchAux ats none rest) := by
  intro w
  induction w with
  | nil =>
    intro prev
    show (!(matchAtoms ats prev ([] ++ b :: rest)).isEmpty ||
      searchAux ats (some b) rest) = _
    rw [matchAtoms_append_blocked b rest ats hr prev [],
      matchAtoms_nil_of_leadLit hl, List.map_nil,
      searchAux_prev_indep hr (some b) none rest]
    show (false || searchAux ats none rest) =
      (searchAux ats prev [] || searchAux ats none rest)
    rw [show searchAux ats prev [] = !(matchAtoms ats prev []).isEmpty from rfl,
      matchAtoms_nil_of_leadLit hl]
    rfl
  | cons c w' ih =>
    intro prev
    show (!(matchAtoms ats prev ((c :: w') ++ b :: rest)).isEmpty ||
      searchAux ats (some c) (w' ++ b :: rest)) = _
    rw [matchAtoms_append_blocked b rest ats hr prev (c :: w'),
      isEmpty_map, ih (some c), ← Bool.or_assoc]
    rfl

theorem subAux_split {b : Char} {ats : List RAtom} {repl : List Char}
    (hr : rejList b ats = true) (hl : leadLit ats = true) (rest : List Char) :
    ∀ (n : Nat) (w : List Char), w.length ≤ n → ∀ (prev : Option Char),
    subAux ats repl (w.length + (rest.length + 1)) prev (w ++ b :: rest) =
      subAux ats repl w.length prev w ++
        b :: subAux ats repl rest.length (some b) rest := by
  intro n
  induction n with
  | zero =>
    intro w hw prev
    have hwn : w = [] := List.length_eq_zero.mp (Nat.le_zero.mp hw)
    subst hwn
    have hmh : matchHere ats prev (b :: rest) = none := by
      have h0 := matchHere_append_blocked hr rest prev []
      rw [List.nil_append] at h0
      rw [h0, show matchHere ats prev [] = none from by
        unfold matchHere
        rw [matchAtoms_nil_of_leadLit hl]
        rfl]
      rfl
    simp only [List.length_nil, List.nil_append, Nat.zero_add]
    rw [subAux_succ, hmh]
    rfl
  | succ n ih =>
    intro w hw prev
    cases w with
    | nil =>
      have hmh : matchHere ats prev (b :: rest) = none := by
        have h0 := matchHere_append_blocked hr rest prev []
        rw [List.nil_append] at h0
        rw [h0, show matchHere ats prev [] = none from by
          unfold matchHere
          rw [matchAtoms_nil_of_leadLit hl]
          rfl]
        rfl
      simp only [List.length_nil, List.nil_append, Nat.zero_add]
      rw [subAux_succ, hmh]
      rfl
    | cons c w' =>
      simp only [List.length_cons, List.cons_append] at hw ⊢
      have hw' : w'.length ≤ n := by omega
      have hXfull : matchHere ats prev (c :: (w' ++ b :: rest)) =
          (matchHere ats prev (c :: w')).map (· ++ b :: rest) := by
        have h0 := matchHere_append_blocked hr rest prev (c :: w')
        rwa [List.cons_append] at h0
      rw [show w'.length + 1 + (rest.length + 1) =
        w'.length + (rest.length + 1) + 1 from by omega]
      rw [subAux_succ, hXfull, subAux_succ]
      cases hmh : matchHere ats prev (c :: w') with
      | none =>
        simp only [Option.map_none']
        rw [ih w' hw' (some c), List.cons_append]
      | some s₀ =>
        simp only [Option.map_some']
        obtain ⟨pc, hmem⟩ := matchHere_some_mem hmh
        have hcons := leadLit_consumes hl prev (c :: w') (pc, s₀) hmem
        simp only [List.length_cons] at hcons
        rw [if_pos (by
          simp only [List.length_append, List.length_cons]
          omega)]
        rw [if_pos (by omega)]
        have hs0n : s₀.length ≤ n := by omega
        have key : ∀ pv,
            subAux ats repl (w'.length + (rest.length + 1)) pv (s₀ ++ b :: rest) =
              subAux ats repl s₀.length none s₀ ++
                b :: subAux ats repl rest.length (some b) rest := by
          intro pv
          rw [subAux_fuel ats repl (w'.length + (rest.length + 1))
              (s₀.length + (rest.length + 1)) pv (s₀ ++ b :: rest)
              (by simp only [List.length_append, List.length_cons]; omega)
              (by simp only [List.length_append, List.length_cons]; omega),
            subAux_prev_indep hr repl (s₀.length + (rest.length + 1)) pv none
              (s₀ ++ b :: rest),
            ih s₀ hs0n none]
        have key2 : ∀ pv, subAux ats repl w'.length pv s₀ =
            subAux ats repl s₀.length none s₀ := by
          intro pv
          rw [subAux_fuel ats repl w'.length s₀.length pv s₀ (by omega)
              (Nat.le_refl _),
            subAux_prev_indep hr repl s₀.length pv none s₀]
        rw [key _, key2 _]
        exact (List.append_assoc repl _ _).symm

theorem applyLinkPattern_split {b : Char} {q : List RAtom × String}
    (hq : PatOK q) (hb : isPySpace b = true) (w rest : List Char) :
    applyLinkPattern (w ++ b :: rest) q =
      applyLinkPattern w q ++ b :: applyLinkPattern rest q := by
  have hr : rejList b q.1 = true := hq.2.1 b hb
  have hl : leadLit q.1 = true := hq.2.2
  have hsplit : subAux q.1 q.2.data (w ++ b :: rest).length none
      (w ++ b :: rest) =
      subAux q.1 q.2.data w.length none w ++
        b :: subAux q.1 q.2.data rest.length (some b) rest := by
    rw [show (w ++ b :: rest).length = w.length + (rest.length + 1) from by
      rw [List.length_append, List.length_cons]]
    exact subAux_split hr hl rest w.length w (Nat.le_refl _) none
  have hrest : subAux q.1 q.2.data rest.length (some b) rest =
      subAux q.1 q.2.data rest.length none rest :=
    subAux_prev_indep hr q.2.data rest.length (some b) none rest
  unfold applyLinkPattern
  rw [show searchRE q.1 (w ++ b :: rest) =
    (searchRE q.1 w || searchRE q.1 rest) from searchAux_split hr hl rest w none]
  cases hsw : searchRE q.1 w with
  | true =>
    rw [if_pos (Bool.true_or _), if_pos rfl]
    rw [show subRE q.1 q.2.data (w ++ b :: rest) =
      subAux q.1 q.2.data (w ++ b :: rest).length none (w ++ b :: rest) from rfl,
      hsplit, hrest]
    cases hsr : searchRE q.1 rest with
    | true =>
      rw [if_pos rfl]
      rfl
    | false =>
      rw [if_neg Bool.false_ne_true, subAux_no_match rest none rest.length hsr]
      rfl
  | false =>
    rw [Bool.false_or, if_neg Bool.false_ne_true]
    cases hsr : searchRE q.1 rest with
    | true =>
      rw [if_pos rfl, if_pos rfl]
      rw [show subRE q.1 q.2.data (w ++ b :: rest) =
        subAux q.1 q.2.data (w ++ b :: rest).length none (w ++ b :: rest) from rfl,
        hsplit, hrest, subAux_no_match w none w.length hsw]
      rfl
    | false =>
      rw [if_neg Bool.false_ne_true, if_neg Bool.false_ne_true]

/-! ### The structural facts hold of every entry of the pattern table -/

theorem lit_all_ws {b : Char} (hb : isPySpace b = true) {cs : List Char}
    (hcs : cs.all (fun c => !isPySpace c.toLower) = true) :
    cs.all (fun c => !charEqCI c b) = true := by
  rw [List.all_eq_true] at hcs ⊢
  intro c hc
  have h1 := hcs c hc
  rw [charEqCI_pySpace (by simpa using h1) hb]
  rfl

theorem patOK_of (pat : List RAtom) (tag : String)
    (h1 : rejList (Char.ofNat 91) pat.dropLast = true)
    (h2 : pat.dropLast ++ [.star clsNS] = pat)
    (hws : ∀ b, isPySpace b = true → rejList b pat = true)
    (h3 : leadLit pat = true) : PatOK (pat, tag) :=
  ⟨⟨pat.dropLast, h2.symm, h1⟩, hws, h3⟩

theorem linkPatterns_PatOK : ∀ q ∈ linkPatterns, PatOK q := by
  intro q hq
  simp only [linkPatterns, List.mem_cons, List.not_mem_nil, or_false] at hq
  rcases hq with rfl|rfl|rfl|rfl|rfl|rfl|rfl|rfl|rfl|rfl|rfl|rfl|rfl|rfl|rfl|rfl|rfl|rfl|rfl|rfl|rfl|rfl|rfl|rfl|rfl|rfl|rfl|rfl|rfl|rfl|rfl|rfl|rfl|rfl|rfl|rfl|rfl|rfl|rfl|rfl <;>
    refine patOK_of _ _ (by decide) rfl ?_ (by decide) <;>
    (intro b hb
     simp only [L, dig13, rejList, rejAtom, List.cons_append, List.nil_append,
       Bool.and_eq_true]
     repeat' apply And.intro) <;>
    first
      | exact trivial
      | exact lit_all_ws hb (by decide)
      | (rw [clsId_pySpace hb]; rfl)
      | (rw [clsDom_pySpace hb]; rfl)
      | (rw [clsAlpha_pySpace hb]; rfl)
      | (rw [clsDigit_pySpace hb]; rfl)
      | (rw [clsNS_pySpace hb]; rfl)

theorem tag_no_match : (linkPatterns.all fun q =>
    linkPatterns.all fun p => !searchRE q.1 p.2.data) = true := by decide

theorem linkPatterns_tags_ws :
    (linkPatterns.all fun q => q.2.data.all fun c => !isPySpace c) = true := by
  decide

theorem linkPatterns_tags_head :
    (linkPatterns.all fun q => q.2.data.head? == some (Char.ofNat 91)) = true := by
  decide

theorem tag_search_false {q p : List RAtom × String} (hq : q ∈ linkPatterns)
    (hp : p ∈ linkPatterns) : searchRE q.1 p.2.data = false := by
  have h := tag_no_match
  rw [List.all_eq_true] at h
  have h2 := h q hq
  rw [List.all_eq_true] at h2
  have h3 := h2 p hp
  simpa using h3

theorem tag_ws {p : List RAtom × String} (hp : p ∈ linkPatterns) :
    ∀ c ∈ p.2.data, isPySpace c = false := by
  have h := linkPatterns_tags_ws
  rw [List.all_eq_true] at h
  have h2 := h p hp
  rw [List.all_eq_true] at h2
  intro c hc
  simpa using h2 c hc

theorem tag_head {p : List RAtom × String} (hp : p ∈ linkPatterns) :
    ∃ t, p.2.data = Char.ofNat 91 :: t := by
  have h := linkPatterns_tags_head
  rw [List.all_eq_true] at h
  have h2 := h p hp
  rw [beq_iff_eq] at h2
  cases hd : p.2.data with
  | nil => rw [hd] at h2; cases h2
  | cons c t =>
    rw [hd, List.head?_cons] at h2
    injection h2 with h3
    exact ⟨t, by rw [h3]⟩


/-! ### Transfer helpers for the word invariant -/

theorem droptake_append (w : List Char) {i j : Nat} (hj : j ≤ i) :
    (w.take i).drop j ++ w.drop i = w.drop j := by
  rw [List.drop_take]
  have h1 : (w.drop j).drop (i - j) = w.drop i := by
    rw [List.drop_drop]
    congr 1
    omega
  rw [← h1]
  exact List.take_append_drop _ _

theorem matchAtoms_nil_of_append {b : Char} {mand : List RAtom}
    (hr : rejList b mand = true) (B C : List Char)
    (h : matchAtoms mand none (B ++ C) = []) :
    matchAtoms mand none B = [] := by
  cases hx : matchAtoms mand none B with
  | nil => rfl
  | cons st l =>
    have hm := matchAtoms_extend b C mand hr none B st
      (hx ▸ List.mem_cons_self st l)
    rw [h] at hm
    exact absurd hm (List.not_mem_nil _)

theorem mand_nil_of_pat_nil {q : List RAtom × String} {mand : List RAtom}
    (he : q.1 = mand ++ [.star clsNS]) {pv : Option Char} {s : List Char}
    (h : matchAtoms q.1 pv s = []) : matchAtoms mand pv s = [] := by
  rw [he] at h
  exact matchAtoms_trailing_star_eq_nil.mp h

theorem matchAtoms_nil_blocked_iff {b : Char} {mand : List RAtom}
    (hr : rejList b mand = true) (X : List Char) (pv : Option Char)
    (d : List Char) :
    matchAtoms mand pv (d ++ b :: X) = [] ↔ matchAtoms mand pv d = [] := by
  rw [matchAtoms_append_blocked b X mand hr pv d, List.map_eq_nil_iff]

theorem patok_rej_ws {q : List RAtom × String} (hq : q ∈ linkPatterns)
    {b : Char} (hb : isPySpace b = true) : rejList b q.1 = true :=
  (linkPatterns_PatOK q hq).2.1 b hb

theorem rej_mand_of_eq {q : List RAtom × String} {mand : List RAtom} {b : Char}
    (hfull : rejList b q.1 = true) (he : q.1 = mand ++ [.star clsNS]) :
    rejList b mand = true := by
  rw [he, rejList_append, Bool.and_eq_true] at hfull
  exact hfull.1

theorem rej91_mand_of_eq {q : List RAtom × String} (hq : q ∈ linkPatterns)
    {mand : List RAtom} (he : q.1 = mand ++ [.star clsNS]) :
    rejList (Char.ofNat 91) mand = true := by
  obtain ⟨⟨m0, he0, hr0⟩, _, _⟩ := linkPatterns_PatOK q hq
  have hm : mand = m0 := List.append_cancel_right (by rw [← he, ← he0])
  rw [hm]
  exact hr0

theorem allpos_of_search_false {q : List RAtom × String} (hq : q ∈ linkPatterns)
    {s : List Char} (hs : searchRE q.1 s = false) :
    ∀ i pv, matchAtoms q.1 pv (s.drop i) = [] :=
  searchAux_false_all (patok_rej_ws hq (by decide : isPySpace (Char.ofNat 32) = true))
    s none hs

theorem cond_shrink {q : List RAtom × String} (hq : q ∈ linkPatterns)
    {mand : List RAtom} (he : q.1 = mand ++ [.star clsNS])
    {w : List Char} {n i j : Nat} (hin : i ≤ n) (hji : j ≤ i)
    (hfull : matchAtoms mand none ((w.take n).drop j) = []) :
    matchAtoms mand none ((w.take i).drop j) = [] := by
  have hrm : rejList (Char.ofNat 32) mand = true :=
    rej_mand_of_eq (patok_rej_ws hq (by decide)) he
  apply matchAtoms_nil_of_append hrm _ ((w.take n).drop i)
  rw [show (w.take i).drop j ++ (w.take n).drop i = (w.take n).drop j from by
    rw [show w.take i = (w.take n).take i from by
      rw [List.take_take, Nat.min_eq_left hin]]
    exact droptake_append (w.take n) hji]
  exact hfull

theorem drop_append_ge {d z : List Char} {k : Nat} (h : d.length ≤ k) :
    (d ++ z).drop k = z.drop (k - d.length) := by
  have h2 : (d ++ z).drop (d.length + (k - d.length)) = z.drop (k - d.length) :=
    List.drop_append _
  rw [show d.length + (k - d.length) = k from by omega] at h2
  exact h2

theorem wordInv_step {w : List Char} (hws : ∀ c ∈ w, isPySpace c = false)
    {ps : List (List RAtom × String)} {s : List Char}
    {q : List RAtom × String} (hq : q ∈ linkPatterns)
    (hps : ∀ x ∈ ps, x ∈ linkPatterns)
    (hinv : WordInv w ps s) :
    WordInv w (ps ++ [q]) (applyLinkPattern s q) := by
  obtain ⟨⟨m0, hm0, hr91⟩, hwsrej, hlead⟩ := linkPatterns_PatOK q hq
  unfold WordInv at hinv ⊢
  rcases hinv with ⟨rfl, hA⟩ | ⟨n, p, hn, hp, rfl, hB⟩
  · -- state is still `w`
    unfold applyLinkPattern
    cases hs : searchRE q.1 s with
    | false =>
      rw [if_neg Bool.false_ne_true]
      left
      refine ⟨rfl, ?_⟩
      intro q' hq'
      rcases List.mem_append.mp hq' with h | h
      · exact hA q' h
      · rw [List.mem_singleton] at h
        subst h
        exact hs
    | true =>
      rw [if_pos rfl]
      have hs' : searchAux (m0 ++ [.star clsNS]) none s = true := by
        rw [← hm0]
        exact hs
      obtain ⟨i, hi, hjs, hne, hsub⟩ :=
        @subAux_wsfree_match m0 q.2.data
          (by rw [← hm0]; exact hwsrej ' ' (by decide))
          (by rw [← hm0]; exact hlead) s none hws hs'
      right
      refine ⟨i, q, Nat.le_of_lt hi, hq, ?_, ?_⟩
      · rw [show subRE q.1 q.2.data s =
          subAux q.1 q.2.data s.length none s from rfl, hm0]
        exact hsub
      · intro q' hq' mand' he' j hj
        rcases List.mem_append.mp hq' with h | h
        · have hfull := allpos_of_search_false (hps q' h) (hA q' h) j none
          have hmnd := mand_nil_of_pat_nil he' hfull
          apply cond_shrink (hps q' h) he' (Nat.le_of_lt hi) (Nat.le_of_lt hj)
          rw [List.take_length]
          exact hmnd
        · rw [List.mem_singleton] at h
          subst h
          have hfull : matchAtoms q'.1 none (s.drop j) = [] := by
            rw [hm0]
            exact hjs j hj
          have hmnd := mand_nil_of_pat_nil he' hfull
          apply cond_shrink hq he' (Nat.le_of_lt hi) (Nat.le_of_lt hj)
          rw [List.take_length]
          exact hmnd
  · -- state is `w.take n ++ tag`
    obtain ⟨trest, htag⟩ := tag_head hp
    have hulen : (w.take n).length = n := by
      rw [List.length_take]
      exact Nat.min_eq_left hn
    unfold applyLinkPattern
    cases hs : searchRE q.1 (w.take n ++ p.2.data) with
    | false =>
      rw [if_neg Bool.false_ne_true]
      right
      refine ⟨n, p, hn, hp, rfl, ?_⟩
      intro q' hq' mand' he' j hj
      rcases List.mem_append.mp hq' with h | h
      · exact hB q' h mand' he' j hj
      · rw [List.mem_singleton] at h
        subst h
        have hall := allpos_of_search_false hq hs j none
        rw [drop_append_of_le (by rw [hulen]; exact Nat.le_of_lt hj)] at hall
        have hmnd := mand_nil_of_pat_nil he' hall
        rw [htag] at hmnd
        exact (matchAtoms_nil_blocked_iff (rej91_mand_of_eq hq he') trest none
          _).mp hmnd
    | true =>
      rw [if_pos rfl]
      have hwstag : ∀ c ∈ w.take n ++ p.2.data, isPySpace c = false := by
        intro c hc
        rcases List.mem_append.mp hc with h | h
        · exact hws c (List.take_subset _ _ h)
        · exact tag_ws hp c h
      have hs' : searchAux (m0 ++ [.star clsNS]) none
          (w.take n ++ p.2.data) = true := by
        rw [← hm0]
        exact hs
      obtain ⟨i, hi, hjs, hne, hsub⟩ :=
        @subAux_wsfree_match m0 q.2.data
          (by rw [← hm0]; exact hwsrej ' ' (by decide))
          (by rw [← hm0]; exact hlead) (w.take n ++ p.2.data) none hwstag hs'
      have hiltn : i < n := by
        by_contra hge
        have hge' : n ≤ i := Nat.le_of_not_lt hge
        have hdrop : (w.take n ++ p.2.data).drop i =
            p.2.data.drop (i - (w.take n).length) :=
          drop_append_ge (by rw [hulen]; exact hge')
        rw [← hm0] at hne
        refine hne ?_
        rw [hdrop]
        exact allpos_of_search_false hq (tag_search_false hq hp) _ none
      right
      refine ⟨i, q, by omega, hq, ?_, ?_⟩
      · rw [show subRE q.1 q.2.data (w.take n ++ p.2.data) =
          subAux q.1 q.2.data (w.take n ++ p.2.data).length none
            (w.take n ++ p.2.data) from rfl, hm0, hsub,
          take_append_of_le (by rw [hulen]; exact Nat.le_of_lt hiltn),
          List.take_take, Nat.min_eq_left (Nat.le_of_lt hiltn)]
      · intro q' hq' mand' he' j hj
        rcases List.mem_append.mp hq' with h | h
        · exact cond_shrink (hps q' h) he' (Nat.le_of_lt hiltn)
            (Nat.le_of_lt hj) (hB q' h mand' he' j (by omega))
        · rw [List.mem_singleton] at h
          subst h
          have hfull' := hjs j hj
          have hfull : matchAtoms q'.1 none
              ((w.take n).drop j ++ p.2.data) = [] := by
            rw [hm0, ← drop_append_of_le (by rw [hulen]; omega)]
            exact hfull'
          have hmnd := mand_nil_of_pat_nil he' hfull
          rw [htag] at hmnd
          have hu := (matchAtoms_nil_blocked_iff (rej91_mand_of_eq hq he')
            trest none _).mp hmnd
          exact cond_shrink hq he' (Nat.le_of_lt hiltn) (Nat.le_of_lt hj) hu

theorem wordInv_fold {w : List Char} (hws : ∀ c ∈ w, isPySpace c = false) :
    ∀ (ps₂ ps₁ : List (List RAtom × String)) (s : List Char),
    (∀ x ∈ ps₁, x ∈ linkPatterns) → (∀ x ∈ ps₂, x ∈ linkPatterns) →
    WordInv w ps₁ s →
    WordInv w (ps₁ ++ ps₂) (ps₂.foldl applyLinkPattern s) := by
  intro ps₂
  induction ps₂ with
  | nil =>
    intro ps₁ s _ _ hinv
    rw [List.append_nil]
    exact hinv
  | cons q ps₂' ih =>
    intro ps₁ s h₁ h₂ hinv
    have hq : q ∈ linkPatterns := h₂ q (List.mem_cons_self q ps₂')
    have step := wordInv_step hws hq h₁ hinv
    have h₁' : ∀ x ∈ ps₁ ++ [q], x ∈ linkPatterns := by
      intro x hx
      rcases List.mem_append.mp hx with h | h
      · exact h₁ x h
      · rw [List.mem_singleton] at h
        subst h
        exact hq
    have h₂' : ∀ x ∈ ps₂', x ∈ linkPatterns :=
      fun x hx => h₂ x (List.mem_cons_of_mem q hx)
    have res := ih (ps₁ ++ [q]) (applyLinkPattern s q) h₁' h₂' step
    rw [List.append_assoc, List.singleton_append] at res
    rw [List.foldl_cons]
    exact res

theorem word_pass_no_search {w : List Char}
    (hws : ∀ c ∈ w, isPySpace c = false) :
    ∀ q ∈ linkPatterns,
    searchRE q.1 (linkPatterns.foldl applyLinkPattern w) = false := by
  have hinv0 : WordInv w [] w :=
    Or.inl ⟨rfl, fun x hx => absurd hx (List.not_mem_nil x)⟩
  have hall := wordInv_fold hws linkPatterns [] w
    (fun x hx => absurd hx (List.not_mem_nil x)) (fun _ hx => hx) hinv0
  rw [List.nil_append] at hall
  unfold WordInv at hall
  intro q hq
  rcases hall with ⟨heq, hA⟩ | ⟨n, p, hn, hp, heq, hB⟩
  · rw [heq]
    exact hA q hq
  · rw [heq]
    obtain ⟨⟨m0, hm0, hr91⟩, hwsrej, _⟩ := linkPatterns_PatOK q hq
    obtain ⟨trest, htag⟩ := tag_head hp
    have hulen : (w.take n).length = n := by
      rw [List.length_take]
      exact Nat.min_eq_left hn
    by_contra hpos
    rw [Bool.not_eq_false] at hpos
    obtain ⟨k, hk⟩ := searchRE_pos (hwsrej ' ' (by decide)) hpos
    rcases Nat.lt_or_ge k n with hkn | hkn
    · have hdrop : (w.take n ++ p.2.data).drop k =
          (w.take n).drop k ++ p.2.data :=
        drop_append_of_le (by rw [hulen]; exact Nat.le_of_lt hkn)
      rw [hdrop] at hk
      have hmnd_nil := hB q hq m0 hm0 k hkn
      refine hk ?_
      rw [hm0, htag]
      exact matchAtoms_trailing_star_eq_nil.mpr
        ((matchAtoms_nil_blocked_iff hr91 trest none _).mpr hmnd_nil)
    · have hdrop : (w.take n ++ p.2.data).drop k =
          p.2.data.drop (k - (w.take n).length) :=
        drop_append_ge (by rw [hulen]; exact hkn)
      rw [hdrop] at hk
      exact hk (allpos_of_search_false hq (tag_search_false hq hp) _ none)

theorem foldl_apply_id {s : List Char} :
    ∀ {ps : List (List RAtom × String)},
    (∀ q ∈ ps, searchRE q.1 s = false) →
    ps.foldl applyLinkPattern s = s := by
  intro ps
  induction ps with
  | nil => intro _; rfl
  | cons q ps' ih =>
    intro h
    rw [List.foldl_cons, show applyLinkPattern s q = s from by
      unfold applyLinkPattern
      rw [h q (List.mem_cons_self q ps'), if_neg Bool.false_ne_true]]
    exact ih (fun x hx => h x (List.mem_cons_of_mem q hx))

theorem word_idem {w : List Char} (hws : ∀ c ∈ w, isPySpace c = false) :
    linkPatterns.foldl applyLinkPattern (linkPatterns.foldl applyLinkPattern w) =
      linkPatterns.foldl applyLinkPattern w :=
  foldl_apply_id (word_pass_no_search hws)

theorem applyLinkPattern_wsfree {w : List Char}
    (hws : ∀ c ∈ w, isPySpace c = false)
    {q : List RAtom × String} (hq : q ∈ linkPatterns) :
    ∀ c ∈ applyLinkPattern w q, isPySpace c = false := by
  obtain ⟨⟨m0, hm0, _⟩, hwsrej, hlead⟩ := linkPatterns_PatOK q hq
  unfold applyLinkPattern
  cases hs : searchRE q.1 w with
  | false =>
    rw [if_neg Bool.false_ne_true]
    exact hws
  | true =>
    rw [if_pos rfl]
    have hs' : searchAux (m0 ++ [.star clsNS]) none w = true := by
      rw [← hm0]
      exact hs
    obtain ⟨i, hi, hjs, hne, hsub⟩ :=
      @subAux_wsfree_match m0 q.2.data
        (by rw [← hm0]; exact hwsrej ' ' (by decide))
        (by rw [← hm0]; exact hlead) w none hws hs'
    rw [show subRE q.1 q.2.data w =
      subAux q.1 q.2.data w.length none w from rfl, hm0, hsub]
    intro c hc
    rcases List.mem_append.mp hc with h | h
    · exact hws c (List.take_subset _ _ h)
    · exact tag_ws hq c h

theorem foldl_wsfree : ∀ (ps : List (List RAtom × String)) (w : List Char),
    (∀ x ∈ ps, x ∈ linkPatterns) → (∀ c ∈ w, isPySpace c = false) →
    ∀ c ∈ ps.foldl applyLinkPattern w, isPySpace c = false := by
  intro ps
  induction ps with
  | nil =>
    intro w _ hws
    exact hws
  | cons q ps' ih =>
    intro w h hws
    rw [List.foldl_cons]
    exact ih (applyLinkPattern w q) (fun x hx => h x (List.mem_cons_of_mem q hx))
      (applyLinkPattern_wsfree hws (h q (List.mem_cons_self q ps')))

theorem foldl_split {b : Char} (hb : isPySpace b = true) (w rest : List Char) :
    ∀ {ps : List (List RAtom × String)}, (∀ x ∈ ps, x ∈ linkPatterns) →
    ps.foldl applyLinkPattern (w ++ b :: rest) =
      ps.foldl applyLinkPattern w ++ b :: ps.foldl applyLinkPattern rest := by
  intro ps
  induction ps generalizing w rest with
  | nil => intro _; rfl
  | cons q ps' ih =>
    intro h
    rw [List.foldl_cons, List.foldl_cons, List.foldl_cons,
      applyLinkPattern_split
        (linkPatterns_PatOK q (h q (List.mem_cons_self q ps'))) hb w rest]
    exact ih _ _ (fun x hx => h x (List.mem_cons_of_mem q hx))

theorem split_at_ws : ∀ (t : List Char), (¬ ∀ c ∈ t, isPySpace c = false) →
    ∃ w b rest, t = w ++ b :: rest ∧ (∀ c ∈ w, isPySpace c = false) ∧
      isPySpace b = true := by
  intro t
  induction t with
  | nil =>
    intro h
    exact absurd (fun c hc => absurd hc (List.not_mem_nil c)) h
  | cons c t' ih =>
    intro h
    cases hc : isPySpace c with
    | true =>
      exact ⟨[], c, t', rfl, fun x hx => absurd hx (List.not_mem_nil x), hc⟩
    | false =>
      have h' : ¬ ∀ x ∈ t', isPySpace x = false := by
        intro hall
        refine h (fun x hx => ?_)
        rcases List.mem_cons.mp hx with rfl | hx'
        · exact hc
        · exact hall x hx'
      obtain ⟨w, b, rest, heq, hwsw, hb⟩ := ih h'
      refine ⟨c :: w, b, rest, by rw [heq]; rfl, ?_, hb⟩
      intro x hx
      rcases List.mem_cons.mp hx with rfl | hx'
      · exact hc
      · exact hwsw x hx'

theorem fold_idem : ∀ (n : Nat) (t : List Char), t.length ≤ n →
    linkPatterns.foldl applyLinkPattern (linkPatterns.foldl applyLinkPattern t) =
      linkPatterns.foldl applyLinkPattern t := by
  intro n
  induction n with
  | zero =>
    intro t ht
    have h0 : t = [] := List.length_eq_zero.mp (Nat.le_zero.mp ht)
    subst h0
    exact word_idem (fun c hc => absurd hc (List.not_mem_nil c))
  | succ n ih =>
    intro t ht
    by_cases hws : ∀ c ∈ t, isPySpace c = false
    · exact word_idem hws
    · obtain ⟨w, b, rest, rfl, hwsw, hb⟩ := split_at_ws t hws
      have hrest_len : rest.length ≤ n := by
        rw [List.length_append, List.length_cons] at ht
        omega
      have hall : ∀ x ∈ linkPatterns, x ∈ linkPatterns := fun _ hx => hx
      rw [foldl_split hb w rest hall,
        foldl_split hb (linkPatterns.foldl applyLinkPattern w)
          (linkPatterns.foldl applyLinkPattern rest) hall,
        word_idem hwsw, ih rest hrest_len]

/-- C8: link classification at domain level is idempotent: for every text
`T`, `anonymize_all_links (anonymize_all_links T "domain") "domain"` equals
`anonymize_all_links T "domain"` — once every match has been replaced by
its bracketed tag, a second pass finds no further raw URLs and changes
nothing. -/
theorem c8_domain_link_pass_idempotent (T : String) :
    anonymize_all_links (anonymize_all_links T "domain") "domain" =
      anonymize_all_links T "domain" := by
  by_cases hT : T = ""
  · subst hT
    rfl
  · have hbeq : (T == "") = false := by
      rw [beq_eq_false_iff_ne]
      exact hT
    have hinner : anonymize_all_links T "domain" =
        String.mk (linkPatterns.foldl applyLinkPattern T.data) := by
      unfold anonymize_all_links
      rw [hbeq, if_neg Bool.false_ne_true,
        show (("domain" : String) == "full") = false from rfl,
        if_neg Bool.false_ne_true]
    have key : ∀ (s : String),
        s.data = linkPatterns.foldl applyLinkPattern T.data →
        anonymize_all_links s "domain" = s := by
      intro s hs
      unfold anonymize_all_links
      cases hE : (s == "") with
      | true => rw [if_pos rfl]
      | false =>
        rw [if_neg Bool.false_ne_true,
          show (("domain" : String) == "full") = false from rfl,
          if_neg Bool.false_ne_true, hs,
          fold_idem T.data.length T.data (Nat.le_refl _), ← hs]
    exact key (anonymize_all_links T "domain") (by rw [hinner])

end ChatViewer
